import Mathlib

/-!
Verification development for the documentation-server repository.

The repository resolves a filesystem tree of MDX documents (addressed by
"slugs", lists of path segments) into rendered pages, navigation listings and
a search index.  This file gives a shallow embedding of the algorithmic core:

* the slug codec (`slugToHref`, `assertSafeSlug`, `splitSlugParam`),
* the recursive MDX composer with cycle detection (`compileMdx`),
* the directory-tree builder (`collectDocs`, `getChildNodes`),
* the search-index builder (`getDocsIndex`, `stripMarkdown`, `humanizeName`)
  and the client-side query matcher (`searchResults`, `buildSnippet`).

JS strings are modelled as Lean `String`s (reasoning happens on `String.data`);
the filesystem is modelled both as an inductive tree (for the recursive walk)
and as a finite map from absolute paths to directory listings and file
contents (for the one-level listing, which resolves paths through
`path.join`).  Front-matter parsing (the external `gray-matter` library and
`compileMDX`'s `parseFrontmatter`) is modelled abstractly: a stored document
is a pair of structured front matter and a body.
-/

namespace DocSrv

/-! ### Character-list primitives shared by the embeddings -/

/-- Does `l` start with the pattern `pat`?  (Char-list level.) -/
def startsWithCh (l pat : List Char) : Bool :=
  match pat, l with
  | [], _ => true
  | _ :: _, [] => false
  | p :: ps, c :: cs => p = c && startsWithCh cs ps

/-- First index at which `pat` occurs in `l`, embedding JS
`String.prototype.indexOf`.  An empty pattern matches at index 0. -/
def idxOfCh (l pat : List Char) : Option Nat :=
  match l with
  | [] => if pat.isEmpty then some 0 else none
  | _ :: rest =>
    if startsWithCh l pat then some 0
    else (idxOfCh rest pat).map (· + 1)

/-- Embedding of JS `String.prototype.includes` at the char-list level. -/
def containsCh (l pat : List Char) : Bool :=
  (idxOfCh l pat).isSome

theorem startsWithCh_subset {l pat : List Char} (h : startsWithCh l pat = true) :
    ∀ c ∈ pat, c ∈ l := by
  induction pat generalizing l with
  | nil => intro c hc; cases hc
  | cons p ps ih =>
    cases l with
    | nil => simp [startsWithCh] at h
    | cons c cs =>
      simp only [startsWithCh, Bool.and_eq_true, decide_eq_true_eq] at h
      intro d hd
      rcases List.mem_cons.mp hd with rfl | hd
      · exact h.1 ▸ List.mem_cons_self _ _
      · exact List.mem_cons_of_mem _ (ih h.2 d hd)

theorem idxOfCh_some_subset {l pat : List Char} {i : Nat}
    (h : idxOfCh l pat = some i) : ∀ c ∈ pat, c ∈ l := by
  induction l generalizing i with
  | nil =>
    simp only [idxOfCh] at h
    split at h
    · next he => intro c hc; simp [List.isEmpty_iff.mp he] at hc
    · cases h
  | cons x rest ih =>
    simp only [idxOfCh] at h
    split at h
    · next hs => exact startsWithCh_subset hs
    · cases hpat : idxOfCh rest pat with
      | none => rw [hpat] at h; cases h
      | some j =>
        intro c hc
        exact List.mem_cons_of_mem _ (ih hpat c hc)

theorem containsCh_subset {l pat : List Char} (h : containsCh l pat = true) :
    ∀ c ∈ pat, c ∈ l := by
  unfold containsCh at h
  cases hi : idxOfCh l pat with
  | none => rw [hi] at h; cases h
  | some i => exact idxOfCh_some_subset hi

/-! ### SlugCodec -/

/-- Embedding of `slug.join("/")` (JS `Array.prototype.join` with `"/"`). -/
def joinSlash : List String → String
  | [] => ""
  | [s] => s
  | s :: t :: rest => s ++ "/" ++ joinSlash (t :: rest)

/-- Embedding of `slugToHref` from `navigation-menu.tsx` / `nav-bar.tsx`:
the reserved slug `["home"]` maps to `"/"`; every other slug maps to
`"/" + slug.join("/")`.  (`slug.length === 1 && slug[0] === "home"` is
exactly the test `slug = ["home"]`.) -/
def slugToHref (slug : List String) : String :=
  if slug = ["home"] then "/" else "/" ++ joinSlash slug

/-- Embedding of one segment check inside `assertSafeSlug` (`lib/mdx.ts`):
a segment is rejected when it is empty or contains `".."`, `"/"` or `"\\"`
(JS `String.prototype.includes`). -/
def safeSegment (seg : String) : Bool :=
  seg != "" && !containsCh seg.data ['.', '.'] &&
    !containsCh seg.data ['/'] && !containsCh seg.data ['\\']

/-- Embedding of `assertSafeSlug` (`lib/mdx.ts`), as the predicate "does not
throw": the slug must be non-empty and every segment must pass
`safeSegment`. -/
def assertSafeSlug (slug : List String) : Bool :=
  slug != [] && slug.all safeSegment

/-- Embedding of JS `String.prototype.split("/")` at the char-list level
(keeps empty fields, like the JS original). -/
def splitOnSlashCh : List Char → List (List Char)
  | [] => [[]]
  | c :: rest =>
    if c = '/' then [] :: splitOnSlashCh rest
    else
      match splitOnSlashCh rest with
      | [] => [[c]]
      | x :: xs => (c :: x) :: xs

/-- Validity of a slug per the data model: non-empty segments that contain no
separator characters and are not a parent-traversal token. -/
def ValidSlug (slug : List String) : Prop :=
  ∀ seg ∈ slug, seg.data ≠ [] ∧ '/' ∉ seg.data ∧ '\\' ∉ seg.data ∧ seg ≠ ".."

instance : DecidablePred ValidSlug := fun slug =>
  inferInstanceAs (Decidable (∀ seg ∈ slug, _))

/-- Char-list shadow of `joinSlash`, used for the injectivity argument. -/
def joinCh : List (List Char) → List Char
  | [] => []
  | [x] => x
  | x :: y :: rest => x ++ '/' :: joinCh (y :: rest)

theorem joinSlash_data (l : List String) :
    (joinSlash l).data = joinCh (l.map String.data) := by
  match l with
  | [] => rfl
  | [s] => rfl
  | s :: t :: rest =>
    show (s ++ "/" ++ joinSlash (t :: rest)).data = _
    rw [String.data_append, String.data_append, joinSlash_data (t :: rest)]
    have hs : ("/" : String).data = ['/'] := rfl
    simp [hs, joinCh, List.append_assoc]

theorem slash_split {a b x y : List Char} (ha : '/' ∉ a) (hb : '/' ∉ b)
    (h : a ++ '/' :: x = b ++ '/' :: y) : a = b ∧ x = y := by
  induction a generalizing b with
  | nil =>
    cases b with
    | nil => simpa using h
    | cons c cs =>
      simp only [List.nil_append, List.cons_append, List.cons.injEq] at h
      exact absurd (h.1 ▸ List.mem_cons_self c cs) hb
  | cons c cs ih =>
    cases b with
    | nil =>
      simp only [List.cons_append, List.nil_append, List.cons.injEq] at h
      exact absurd (h.1 ▸ List.mem_cons_self c cs) ha
    | cons d ds =>
      simp only [List.cons_append, List.cons.injEq] at h
      obtain ⟨rfl, h2⟩ := h
      have ha' : '/' ∉ cs := fun hm => ha (List.mem_cons_of_mem _ hm)
      have hb' : '/' ∉ ds := fun hm => hb (List.mem_cons_of_mem _ hm)
      obtain ⟨rfl, rfl⟩ := ih ha' hb' h2
      exact ⟨rfl, rfl⟩

theorem joinCh_inj {l₁ l₂ : List (List Char)}
    (h₁ : ∀ x ∈ l₁, x ≠ [] ∧ '/' ∉ x) (h₂ : ∀ x ∈ l₂, x ≠ [] ∧ '/' ∉ x)
    (h : joinCh l₁ = joinCh l₂) : l₁ = l₂ := by
  induction l₁ generalizing l₂ with
  | nil =>
    match l₂ with
    | [] => rfl
    | [x] =>
      exact absurd (show ([] : List Char) = x from h).symm
        (h₂ x (List.mem_singleton_self x)).1
    | x :: y :: rest =>
      exfalso
      have : ([] : List Char) = x ++ '/' :: joinCh (y :: rest) := h
      cases x with
      | nil => simp at this
      | cons c cs => simp at this
  | cons x xs ih =>
    match l₂ with
    | [] =>
      exfalso
      cases xs with
      | nil =>
        exact (h₁ x (List.mem_singleton_self x)).1 (by simpa [joinCh] using h)
      | cons y rest =>
        have : x ++ '/' :: joinCh (y :: rest) = ([] : List Char) := h
        cases x with
        | nil => simp at this
        | cons c cs => simp at this
    | z :: zs =>
      have hx := h₁ x (List.mem_cons_self _ _)
      have hz := h₂ z (List.mem_cons_self _ _)
      match xs, zs with
      | [], [] =>
        have : x = z := h
        rw [this]
      | [], w :: ws =>
        exfalso
        have hsl : x = z ++ '/' :: joinCh (w :: ws) := h
        exact hx.2 (hsl ▸ List.mem_append_right z (List.mem_cons_self _ _))
      | y :: ys, [] =>
        exfalso
        have hsl : z = x ++ '/' :: joinCh (y :: ys) := h.symm
        exact hz.2 (hsl ▸ List.mem_append_right x (List.mem_cons_self _ _))
      | y :: ys, w :: ws =>
        have hsp : x ++ '/' :: joinCh (y :: ys) = z ++ '/' :: joinCh (w :: ws) := h
        obtain ⟨rfl, htail⟩ := slash_split hx.2 hz.2 hsp
        have := ih (fun a ha => h₁ a (List.mem_cons_of_mem _ ha))
          (fun a ha => h₂ a (List.mem_cons_of_mem _ ha)) htail
        rw [this]

theorem joinSlash_eq_empty {t : List String}
    (ht : ∀ seg ∈ t, seg.data ≠ []) (h : joinSlash t = "") : t = [] := by
  match t with
  | [] => rfl
  | [s] => exact absurd (congrArg String.data h) (ht s (List.mem_singleton_self s))
  | s :: u :: rest =>
    exfalso
    have := congrArg String.data h
    rw [joinSlash_data] at this
    have h2 : s.data ++ '/' :: joinCh ((u :: rest).map String.data) = [] := this
    cases hs : s.data with
    | nil => rw [hs] at h2; simp at h2
    | cons c cs => rw [hs] at h2; simp at h2

theorem data_map_inj {s t : List String} (h : s.map String.data = t.map String.data) :
    s = t :=
  List.map_injective_iff.mpr (fun _ _ hab => String.ext hab) h

/-- C7: `slugToHref` maps the reserved slug `["home"]` to `"/"` and every
other slug `s` to `"/" ++ joinSlash s`; over all valid slugs (including the
empty root slug) the map is injective except for the single collapsing of
`["home"]` onto the root slug's image `"/"`. -/
theorem C7_toHref_bijective_except_home :
    slugToHref ["home"] = "/" ∧
    (∀ s : List String, s ≠ ["home"] → slugToHref s = "/" ++ joinSlash s) ∧
    (∀ s t : List String, ValidSlug s → ValidSlug t →
      slugToHref s = slugToHref t →
      s = t ∨ (s = ["home"] ∧ t = []) ∨ (s = [] ∧ t = ["home"])) := by
  refine ⟨rfl, fun s hs => by simp [slugToHref, hs], ?_⟩
  intro s t hvs hvt h
  have segdata : ∀ {u : List String}, ValidSlug u →
      ∀ x ∈ u.map String.data, x ≠ [] ∧ '/' ∉ x := by
    intro u hv x hx
    rcases List.mem_map.mp hx with ⟨seg, hseg, rfl⟩
    exact ⟨(hv seg hseg).1, (hv seg hseg).2.1⟩
  have joinInj : ∀ {u v : List String}, ValidSlug u → ValidSlug v →
      joinSlash u = joinSlash v → u = v := by
    intro u v hu hv hj
    have := congrArg String.data hj
    rw [joinSlash_data, joinSlash_data] at this
    exact data_map_inj (joinCh_inj (segdata hu) (segdata hv) this)
  have emptyCase : ∀ {u : List String}, ValidSlug u → joinSlash u = "" → u = [] := by
    intro u hu hj
    exact joinSlash_eq_empty (fun seg hseg => (hu seg hseg).1) hj
  by_cases hsh : s = ["home"] <;> by_cases hth : t = ["home"]
  · exact Or.inl (hsh.trans hth.symm)
  · subst hsh
    rw [slugToHref, if_pos rfl, slugToHref, if_neg hth] at h
    have hdata := congrArg String.data h
    rw [String.data_append] at hdata
    have hj : (joinSlash t).data = [] := by
      have : ['/'] = '/' :: (joinSlash t).data := hdata
      simpa using this.symm
    exact Or.inr (Or.inl ⟨rfl, emptyCase hvt (String.ext hj)⟩)
  · subst hth
    rw [slugToHref, if_neg hsh, slugToHref, if_pos rfl] at h
    have hdata := congrArg String.data h.symm
    rw [String.data_append] at hdata
    have hj : (joinSlash s).data = [] := by
      have : ['/'] = '/' :: (joinSlash s).data := hdata
      simpa using this.symm
    exact Or.inr (Or.inr ⟨emptyCase hvs (String.ext hj), rfl⟩)
  · rw [slugToHref, if_neg hsh, slugToHref, if_neg hth] at h
    have hdata := congrArg String.data h
    rw [String.data_append, String.data_append] at hdata
    have hj : (joinSlash s).data = (joinSlash t).data :=
      List.append_cancel_left hdata
    exact Or.inl (joinInj hvs hvt (String.ext hj))

/-- Closed witness for C7: instantiated at the one genuine collision,
`slugToHref ["home"] = slugToHref []`. -/
theorem C7_witness :
    (["home"] : List String) = [] ∨
      ((["home"] : List String) = ["home"] ∧ ([] : List String) = []) ∨
      ((["home"] : List String) = [] ∧ ([] : List String) = ["home"]) :=
  C7_toHref_bijective_except_home.2.2 ["home"] [] (by decide) (by decide) (by decide)

/-! ### JS whitespace handling -/

/-- Whitespace class of JS regular expressions and `String.prototype.trim`,
restricted to the ASCII range used by this development. -/
def isJsWs (c : Char) : Bool :=
  c = ' ' || c = '\t' || c = '\n' || c = '\r' || c = Char.ofNat 11 || c = Char.ofNat 12

/-- Run-tracking scanner for `.replace(/\s+/g, " ")`: the boolean records
whether the previous character belonged to a whitespace run. -/
def collapseWsAux : List Char → Bool → List Char
  | [], _ => []
  | c :: rest, inRun =>
    if isJsWs c then
      if inRun then collapseWsAux rest true
      else ' ' :: collapseWsAux rest true
    else c :: collapseWsAux rest false

/-- Embedding of `.replace(/\s+/g, " ")`: every maximal whitespace run is
replaced by a single space. -/
def collapseWsCh (l : List Char) : List Char :=
  collapseWsAux l false

/-- Embedding of JS `String.prototype.trim` at the char-list level. -/
def trimCh (l : List Char) : List Char :=
  ((l.dropWhile isJsWs).reverse.dropWhile isJsWs).reverse

/-- Embedding of JS `String.prototype.trim`. -/
def jsTrim (s : String) : String :=
  String.mk (trimCh s.data)

/-- Embedding of JS `String.prototype.toLowerCase`, restricted to the ASCII
range (character-wise lowering). -/
def toLowerStr (s : String) : String :=
  String.mk (s.data.map Char.toLower)

/-- Embedding of the slug-string parsing used both by the tree API route and
by the `Include` component: split on `"/"`, trim each segment, drop empty
segments (`.split("/").map(s => s.trim()).filter(Boolean)`). -/
def splitSlugParam (s : String) : List String :=
  (((splitOnSlashCh s.data).map fun seg => String.mk (trimCh seg)).filter (· != ""))

/-! ### SearchIndexer: the client-side query matcher (`navigation-menu.tsx`) -/

/-- A search record as consumed by the `Search` component: an index entry
(`slug`, `title`, `content`) together with its precomputed `href`. -/
structure DocLink where
  slug : List String
  title : String
  content : String
  href : String
deriving DecidableEq, Repr

structure SearchResult where
  doc : DocLink
  snippet : String
deriving DecidableEq, Repr

/-- Embedding of JS `String.prototype.includes`. -/
def includesStr (hay pat : String) : Bool :=
  containsCh hay.data pat.data

/-- Embedding of `buildSnippet` from `navigation-menu.tsx`: an 80-character
radius window around the first case-insensitive occurrence of the query in
the content, with ellipses on truncated ends; first 160 characters when the
query does not occur; first 140 characters for an empty query. -/
def buildSnippet (content : String) (normalizedQuery : String) : String :=
  if normalizedQuery = "" then jsTrim (String.mk (content.data.take 140))
  else
    match idxOfCh (toLowerStr content).data normalizedQuery.data with
    | none => jsTrim (String.mk (content.data.take 160))
    | some matchIndex =>
      let radius := 80
      let start := matchIndex - radius
      let stop := min content.data.length (matchIndex + normalizedQuery.data.length + radius)
      let snippet := jsTrim (String.mk ((content.data.drop start).take (stop - start)))
      let snippet := if 0 < start then "..." ++ snippet else snippet
      let snippet := if stop < content.data.length then snippet ++ "..." else snippet
      String.mk (collapseWsCh snippet.data)

/-- The haystack `` `${doc.title} ${doc.href} ${doc.content}` `` matched by
the `Search` component. -/
def searchHaystack (d : DocLink) : String :=
  d.title ++ " " ++ d.href ++ " " ++ d.content

/-- Embedding of the `results` computation of the `Search` component
(`navigation-menu.tsx` / `nav-bar.tsx`): normalize the query (trim,
lowercase); empty query gives no results; otherwise map every record to an
optional result, keep the hits and truncate to `MAX_RESULTS = 8`. -/
def searchResults (docs : List DocLink) (query : String) : List SearchResult :=
  let normalizedQuery := toLowerStr (jsTrim query)
  if normalizedQuery = "" then []
  else
    ((docs.map fun d =>
        if includesStr (toLowerStr (searchHaystack d)) normalizedQuery then
          some ⟨d, buildSnippet d.content normalizedQuery⟩
        else none).filterMap id).take 8

/-! ### SearchIndexer: `stripMarkdown` and `humanizeName` -/

/-- The backtick character (avoiding a literal in source text). -/
def tick : Char := Char.ofNat 96

/-- Fuelled scanner for `.replace(/```[\s\S]*?```/g, " ")`: every fenced
code block (non-greedy up to the next closing fence) is replaced by one
space; an unclosed fence is left in place.  The fuel (initially the input
length, which always suffices) only makes the recursion structural. -/
def replaceFencesF : Nat → List Char → List Char
  | 0, l => l
  | _ + 1, [] => []
  | fuel + 1, c :: rest =>
    if startsWithCh (c :: rest) [tick, tick, tick] then
      match idxOfCh ((c :: rest).drop 3) [tick, tick, tick] with
      | some i => ' ' :: replaceFencesF fuel (((c :: rest).drop 3).drop (i + 3))
      | none => c :: replaceFencesF fuel rest
    else c :: replaceFencesF fuel rest

/-- Embedding of `.replace(/```[\s\S]*?```/g, " ")`. -/
def replaceFences (l : List Char) : List Char :=
  replaceFencesF l.length l

/-- Fuelled scanner for `` .replace(/`[^`]*`/g, " ") ``: every inline-code
span is replaced by one space; an unpaired backtick is left in place. -/
def replaceInlineCodeF : Nat → List Char → List Char
  | 0, l => l
  | _ + 1, [] => []
  | fuel + 1, c :: rest =>
    if c = tick then
      match idxOfCh rest [tick] with
      | some i => ' ' :: replaceInlineCodeF fuel (rest.drop (i + 1))
      | none => c :: replaceInlineCodeF fuel rest
    else c :: replaceInlineCodeF fuel rest

/-- Embedding of `` .replace(/`[^`]*`/g, " ") ``. -/
def replaceInlineCode (l : List Char) : List Char :=
  replaceInlineCodeF l.length l

/-- Shared tail matcher for the image/link regexes: given the input just
after an opening `[`, consume `[^\]]*\]\([^\)]*\)` and return the remainder,
or `none` when the pattern does not match here. -/
def bracketPairRest (l : List Char) : Option (List Char) :=
  match idxOfCh l [']'] with
  | some i =>
    match l.drop (i + 1) with
    | '(' :: r3 =>
      match idxOfCh r3 [')'] with
      | some j => some (r3.drop (j + 1))
      | none => none
    | _ => none
  | none => none

theorem bracketPairRest_length {l r : List Char} (h : bracketPairRest l = some r) :
    r.length + 1 ≤ l.length := by
  unfold bracketPairRest at h
  split at h
  · next i hi =>
    split at h
    · next r3 hd =>
      split at h
      · next j hj =>
        cases h
        have h3 : r3.length + 1 = l.length - (i + 1) := by
          have := congrArg List.length hd
          simp only [List.length_drop, List.length_cons] at this
          omega
        have h4 : (r3.drop (j + 1)).length ≤ r3.length :=
          (List.drop_sublist _ _).length_le
        have h5 : i + 1 ≤ l.length := by
          by_contra hc
          rw [List.drop_eq_nil_of_le (by omega)] at hd
          cases hd
        omega
      · cases h
    · cases h
  · cases h

/-- Fuelled scanner for `.replace(/!\[[^\]]*\]\([^\)]*\)/g, " ")`. -/
def replaceImagesF : Nat → List Char → List Char
  | 0, l => l
  | _ + 1, [] => []
  | fuel + 1, c :: rest =>
    if c = '!' then
      match rest with
      | '[' :: r1 =>
        match bracketPairRest r1 with
        | some r' => ' ' :: replaceImagesF fuel r'
        | none => c :: replaceImagesF fuel ('[' :: r1)
      | r => c :: replaceImagesF fuel r
    else c :: replaceImagesF fuel rest

/-- Embedding of `.replace(/!\[[^\]]*\]\([^\)]*\)/g, " ")`. -/
def replaceImages (l : List Char) : List Char :=
  replaceImagesF l.length l

/-- Fuelled scanner for `.replace(/\[[^\]]*\]\([^\)]*\)/g, " ")`. -/
def replaceLinksF : Nat → List Char → List Char
  | 0, l => l
  | _ + 1, [] => []
  | fuel + 1, c :: rest =>
    if c = '[' then
      match bracketPairRest rest with
      | some r' => ' ' :: replaceLinksF fuel r'
      | none => c :: replaceLinksF fuel rest
    else c :: replaceLinksF fuel rest

/-- Embedding of `.replace(/\[[^\]]*\]\([^\)]*\)/g, " ")`. -/
def replaceLinks (l : List Char) : List Char :=
  replaceLinksF l.length l

/-- The character class `[\*_~>#-]` of `stripMarkdown`. -/
def isSpecialMd (c : Char) : Bool :=
  c = '*' || c = '_' || c = '~' || c = '>' || c = '#' || c = '-'

/-- Run-tracking scanner for `.replace(/[\*_~>#-]+/g, " ")`: every maximal
run of the class is replaced by one space. -/
def stripSpecialAux : List Char → Bool → List Char
  | [], _ => []
  | c :: rest, inRun =>
    if isSpecialMd c then
      if inRun then stripSpecialAux rest true
      else ' ' :: stripSpecialAux rest true
    else c :: stripSpecialAux rest false

/-- Embedding of `.replace(/[\*_~>#-]+/g, " ")`. -/
def stripSpecialMd (l : List Char) : List Char :=
  stripSpecialAux l false

/-- Embedding of `stripMarkdown` (`lib/mdx.ts`): drop code fences, inline
code, image and link syntax, then all emphasis/heading/quote/list marker
characters, collapse whitespace and trim. -/
def stripMarkdown (value : String) : String :=
  String.mk (trimCh (collapseWsCh (stripSpecialMd (replaceLinks (replaceImages
    (replaceInlineCode (replaceFences value.data)))))))

/-- The JS `\w` word-character class. -/
def isWordCh (c : Char) : Bool :=
  c.isAlphanum || c = '_'

/-- Embedding of `.replace(/\b\w/g, m => m.toUpperCase())`: uppercase every
word character at a word boundary, tracking the previous character. -/
def capitalizeWords : List Char → Option Char → List Char
  | [], _ => []
  | c :: rest, prev =>
    let boundary := match prev with | none => true | some p => !isWordCh p
    (if boundary && isWordCh c then c.toUpper else c) :: capitalizeWords rest (some c)

/-- Embedding of `humanizeName` (`navigation-menu.tsx`): replace `-` and `_`
by spaces, collapse whitespace, uppercase word-initial characters, trim. -/
def humanizeName (value : String) : String :=
  String.mk (trimCh (capitalizeWords (collapseWsCh (value.data.map
    (fun c => if c = '-' || c = '_' then ' ' else c))) none))

/-! ### C8: the query matcher -/

theorem filterMap_ite_eq_filter_map {α β : Type} (p : α → Bool) (g : α → β)
    (l : List α) :
    (l.map fun a => if p a then some (g a) else none).filterMap id =
      (l.filter p).map g := by
  induction l with
  | nil => rfl
  | cons a l ih =>
    by_cases h : p a <;> simp [h, ih, List.filter_cons]

/-- C8: the query matcher trims and lowercases the raw query; an empty
normalized query yields no results; otherwise the results are exactly the
records whose lowercased haystack (title, href, content) contains the
normalized query as a substring, in input order, truncated to 8. -/
theorem C8_query_matching :
    (∀ (docs : List DocLink) (query : String),
      toLowerStr (jsTrim query) = "" → searchResults docs query = []) ∧
    (∀ (docs : List DocLink) (query : String),
      toLowerStr (jsTrim query) ≠ "" →
        searchResults docs query =
          ((docs.filter fun d =>
              includesStr (toLowerStr (searchHaystack d)) (toLowerStr (jsTrim query))).take 8).map
            fun d => ⟨d, buildSnippet d.content (toLowerStr (jsTrim query))⟩) := by
  constructor
  · intro docs query h
    simp [searchResults, h]
  · intro docs query h
    simp only [searchResults, if_neg h]
    rw [filterMap_ite_eq_filter_map]
    simp [List.map_take]

/-- Closed witness for C8 at a two-record index and the query `" ALP "`. -/
theorem C8_witness :
    searchResults
        [⟨["a"], "Alpha", "some alpha text", "/a"⟩, ⟨["b"], "Beta", "bbb", "/b"⟩]
        " ALP " =
      ((([⟨["a"], "Alpha", "some alpha text", "/a"⟩,
          ⟨["b"], "Beta", "bbb", "/b"⟩] : List DocLink).filter fun d =>
            includesStr (toLowerStr (searchHaystack d)) (toLowerStr (jsTrim " ALP "))).take 8).map
        (fun d => ⟨d, buildSnippet d.content (toLowerStr (jsTrim " ALP "))⟩) :=
  C8_query_matching.2 _ " ALP " (by decide)

/-! ### C10: invariants of `stripMarkdown` -/

theorem dropWhile_head_false {α : Type} {p : α → Bool} {l : List α} {d : α}
    {t : List α} (h : l.dropWhile p = d :: t) : p d = false := by
  have hne : l.dropWhile p ≠ [] := by simp [h]
  have := List.head_dropWhile_not p l hne
  have hh : (l.dropWhile p).head hne = d := by
    rw [List.head_eq_iff_head?_eq_some]
    rw [h]
    rfl
  rwa [hh] at this

theorem stripSpecialAux_no_special :
    ∀ (l : List Char) (b : Bool), ∀ c ∈ stripSpecialAux l b, isSpecialMd c = false := by
  intro l
  induction l with
  | nil => intro b c hc; cases hc
  | cons c rest ih =>
    intro b d hd
    by_cases hsp : isSpecialMd c = true
    · cases b with
      | true =>
        rw [stripSpecialAux, if_pos hsp] at hd
        exact ih true d hd
      | false =>
        rw [stripSpecialAux, if_pos hsp] at hd
        rcases List.mem_cons.mp hd with rfl | hd
        · rfl
        · exact ih true d hd
    · rw [stripSpecialAux, if_neg hsp] at hd
      rcases List.mem_cons.mp hd with rfl | hd
      · exact Bool.not_eq_true _ ▸ hsp
      · exact ih false d hd

theorem collapseWsAux_chars :
    ∀ (l : List Char) (b : Bool), ∀ c ∈ collapseWsAux l b,
      c = ' ' ∨ (c ∈ l ∧ isJsWs c = false) := by
  intro l
  induction l with
  | nil => intro b c hc; cases hc
  | cons c rest ih =>
    intro b d hd
    by_cases hws : isJsWs c = true
    · have hsub : d ∈ collapseWsAux rest true ∨ d = ' ' := by
        cases b with
        | true => rw [collapseWsAux, if_pos hws] at hd; exact Or.inl hd
        | false =>
          rw [collapseWsAux, if_pos hws] at hd
          rcases List.mem_cons.mp hd with rfl | hd
          · exact Or.inr rfl
          · exact Or.inl hd
      rcases hsub with hd' | rfl
      · rcases ih true d hd' with h | ⟨hmem, hnw⟩
        · exact Or.inl h
        · exact Or.inr ⟨List.mem_cons_of_mem _ hmem, hnw⟩
      · exact Or.inl rfl
    · rw [collapseWsAux, if_neg hws] at hd
      rcases List.mem_cons.mp hd with rfl | hd
      · exact Or.inr ⟨List.mem_cons_self _ _, Bool.not_eq_true _ ▸ hws⟩
      · rcases ih false d hd with h | ⟨hmem, hnw⟩
        · exact Or.inl h
        · exact Or.inr ⟨List.mem_cons_of_mem _ hmem, hnw⟩

theorem collapseWsAux_head_true :
    ∀ (l : List Char) (c : Char) (t : List Char),
      collapseWsAux l true = c :: t → isJsWs c = false := by
  intro l
  induction l with
  | nil => intro c t h; cases h
  | cons d rest ih =>
    intro c t h
    by_cases hws : isJsWs d = true
    · rw [collapseWsAux, if_pos hws] at h
      exact ih c t h
    · rw [collapseWsAux, if_neg hws] at h
      injection h with h1 _
      subst h1
      simpa using hws

theorem collapseWsAux_chain :
    ∀ (l : List Char) (b : Bool),
      List.Chain' (fun a b => isJsWs a = true → isJsWs b = false)
        (collapseWsAux l b) := by
  intro l
  induction l with
  | nil => intro b; simp [collapseWsAux]
  | cons c rest ih =>
    intro b
    by_cases hws : isJsWs c = true
    · cases b with
      | true => rw [collapseWsAux, if_pos hws]; exact ih true
      | false =>
        rw [collapseWsAux, if_pos hws]
        refine List.chain'_cons'.mpr ⟨?_, ih true⟩
        intro y hy _
        cases hca : collapseWsAux rest true with
        | nil => rw [hca] at hy; cases hy
        | cons d t =>
          rw [hca] at hy
          have hyd : d = y := by simpa using hy
          subst hyd
          exact collapseWsAux_head_true rest d t hca
    · rw [collapseWsAux, if_neg hws]
      refine List.chain'_cons'.mpr ⟨?_, ih false⟩
      intro y _ hcw
      exact absurd hcw (by simpa using hws)

theorem trimCh_infixOf (l : List Char) : trimCh l <:+: l := by
  unfold trimCh
  have h1 : (l.dropWhile isJsWs) <:+ l := List.dropWhile_suffix _
  have h2 : ((l.dropWhile isJsWs).reverse.dropWhile isJsWs) <:+
      (l.dropWhile isJsWs).reverse := List.dropWhile_suffix _
  have h3 : ((l.dropWhile isJsWs).reverse.dropWhile isJsWs).reverse <+:
      (l.dropWhile isJsWs) := by
    rw [← List.reverse_reverse (l.dropWhile isJsWs)] at h2 ⊢
    exact List.reverse_prefix.mpr (by simpa using h2)
  exact h3.isInfix.trans h1.isInfix

theorem trimCh_head_false {l : List Char} {c : Char} {t : List Char}
    (h : trimCh l = c :: t) : isJsWs c = false := by
  unfold trimCh at h
  have h3 : ((l.dropWhile isJsWs).reverse.dropWhile isJsWs).reverse <+:
      (l.dropWhile isJsWs) := by
    have h2 : ((l.dropWhile isJsWs).reverse.dropWhile isJsWs) <:+
        (l.dropWhile isJsWs).reverse := List.dropWhile_suffix _
    rw [← List.reverse_reverse (l.dropWhile isJsWs)] at h2 ⊢
    exact List.reverse_prefix.mpr (by simpa using h2)
  rw [h] at h3
  rcases h3 with ⟨u, hu⟩
  cases hdw : l.dropWhile isJsWs with
  | nil => rw [hdw] at hu; cases hu
  | cons d t' =>
    rw [hdw] at hu
    have : c = d := by
      have := hu
      simp only [List.cons_append] at this
      exact (List.cons.injEq _ _ _ _ ▸ this).1
    rw [this]
    exact dropWhile_head_false hdw

theorem trimCh_getLast_false {l : List Char} {c : Char}
    (h : (trimCh l).getLast? = some c) : isJsWs c = false := by
  unfold trimCh at h
  rw [List.getLast?_reverse] at h
  cases hdw : (l.dropWhile isJsWs).reverse.dropWhile isJsWs with
  | nil => rw [hdw] at h; cases h
  | cons d t =>
    rw [hdw] at h
    cases h
    exact dropWhile_head_false hdw

/-- C10: for every input, `stripMarkdown` yields text free of the marker
characters `* _ ~ > # -`, with all whitespace collapsed to single spaces
and no leading or trailing whitespace; consequently a query containing a
hyphen can never occur as a substring of the produced `plainText`. -/
theorem C10_stripMarkdown_invariants (value : String) :
    (∀ c ∈ (stripMarkdown value).data, isSpecialMd c = false) ∧
    (∀ c ∈ (stripMarkdown value).data, isJsWs c = true → c = ' ') ∧
    List.Chain' (fun a b => isJsWs a = true → isJsWs b = false)
      (stripMarkdown value).data ∧
    (∀ c t, (stripMarkdown value).data = c :: t → isJsWs c = false) ∧
    (∀ c, ((stripMarkdown value).data).getLast? = some c → isJsWs c = false) ∧
    (∀ q : String, '-' ∈ q.data →
      containsCh (stripMarkdown value).data q.data = false) := by
  have hdata : (stripMarkdown value).data =
      trimCh (collapseWsCh (stripSpecialMd (replaceLinks (replaceImages
        (replaceInlineCode (replaceFences value.data)))))) := rfl
  set inner := stripSpecialMd (replaceLinks (replaceImages
    (replaceInlineCode (replaceFences value.data)))) with hinner
  have hsubset : ∀ c ∈ (stripMarkdown value).data, c ∈ collapseWsCh inner := by
    intro c hc
    rw [hdata] at hc
    exact (trimCh_infixOf _).subset hc
  have hnospec : ∀ c ∈ (stripMarkdown value).data, isSpecialMd c = false := by
    intro c hc
    rcases collapseWsAux_chars inner false c (hsubset c hc) with rfl | ⟨hmem, _⟩
    · rfl
    · exact stripSpecialAux_no_special _ false c hmem
  refine ⟨hnospec, ?_, ?_, ?_, ?_, ?_⟩
  · intro c hc hws
    rcases collapseWsAux_chars inner false c (hsubset c hc) with rfl | ⟨_, hnw⟩
    · rfl
    · rw [hws] at hnw; cases hnw
  · rw [hdata]
    exact List.Chain'.infix (collapseWsAux_chain inner false) (trimCh_infixOf _)
  · intro c t hct
    rw [hdata] at hct
    exact trimCh_head_false hct
  · intro c hc
    rw [hdata] at hc
    exact trimCh_getLast_false hc
  · intro q hq
    by_contra hcon
    have htrue : containsCh (stripMarkdown value).data q.data = true := by
      revert hcon
      cases containsCh (stripMarkdown value).data q.data <;> simp
    have hmem : '-' ∈ (stripMarkdown value).data :=
      containsCh_subset htrue '-' hq
    have := hnospec '-' hmem
    simp [isSpecialMd] at this

/-- Closed witness for C10: the hyphenated query `"a-b"` cannot match
inside `stripMarkdown "a-b  *c*"`. -/
theorem C10_witness :
    containsCh (stripMarkdown "a-b  *c*").data "a-b".data = false :=
  (C10_stripMarkdown_invariants "a-b  *c*").2.2.2.2.2 "a-b" (by decide)

/-! ### DocumentComposer: `compileMdx` / `createIncludeComponent` -/

/-- A front-matter value: the code only ever branches on whether a field is
a string (`typeof data.title === "string"`), so other shapes are collapsed. -/
inductive FmVal where
  | str (s : String)
  | other
deriving DecidableEq, Repr

/-- A body fragment: literal text or an inclusion directive carrying the raw
`slug` attribute string. -/
inductive BodyItem where
  | text (s : String)
  | inc (slugAttr : String)
deriving DecidableEq, Repr

/-- A stored MDX document as seen by the composer: front matter (the result
of `parseFrontmatter`) and a body, already segmented into literal text and
`<Include slug="..."/>` directives.  Front-matter parsing itself is done by
the external MDX tool chain and is modelled abstractly as this split. -/
structure CDoc where
  fm : List (String × FmVal)
  body : List BodyItem
deriving DecidableEq, Repr

/-- The content store for the composer: slugs paired with documents (the
`.mdx` files reachable by `readMdxFile`). -/
abbrev CDocs := List (List String × CDoc)

/-- Errors surfaced by the composition pipeline.  `circularInclude` is the
`"Circular Include detected"` throw, `notFound` the `notFound()` call on
`ENOENT`, `invalidInclude` the `"Include component requires a non-empty
slug"` throw.  `fuelExhausted` is an artifact of the bounded embedding and
is unreachable from `renderMdx`'s initial fuel. -/
inductive CErr where
  | circularInclude (slugKey : String)
  | notFound (slugKey : String)
  | invalidInclude
  | fuelExhausted
deriving DecidableEq, Repr

/-- The result of composition: the fully spliced body and the root
document's front matter. -/
structure Composed where
  body : String
  metadata : List (String × FmVal)
deriving DecidableEq, Repr

/-- Body expansion, parameterized by the recursive compiler: literal text
passes through; each `Include` directive parses its slug attribute
(`createIncludeComponent`), rejects an empty result, and splices the
recursively composed body (only the body — the included document's
front matter is dropped) at the directive's position.  Errors propagate in
directive order. -/
def expandItemsWith (recur : List String → List String → Except CErr Composed)
    (visited : List String) : List BodyItem → Except CErr (List String)
  | [] => .ok []
  | .text s :: rest =>
    match expandItemsWith recur visited rest with
    | .error e => .error e
    | .ok parts => .ok (s :: parts)
  | .inc attr :: rest =>
    let target := splitSlugParam attr
    if target = [] then .error .invalidInclude
    else
      match recur target visited with
      | .error e => .error e
      | .ok c =>
        match expandItemsWith recur visited rest with
        | .error e => .error e
        | .ok parts => .ok (c.body :: parts)

/-- Embedding of `compileMdx` (`mdx-renderer.tsx`): fail with
`CircularInclude` when the slug's key is already in the visited set; read
the document (else `NotFound`); expand the body with a copy of the visited
set extended by the current key, so sibling includes cannot pollute each
other.  The fuel argument only bounds the recursion depth; `renderMdx`
supplies `docs.length + 1`, which the visited-set discipline can never
exhaust. -/
def compileMdx (docs : CDocs) : Nat → List String → List String → Except CErr Composed
  | 0, slug, visited =>
    if visited.contains (joinSlash slug) then
      .error (.circularInclude (joinSlash slug))
    else .error .fuelExhausted
  | fuel + 1, slug, visited =>
    if visited.contains (joinSlash slug) then
      .error (.circularInclude (joinSlash slug))
    else
      match List.lookup slug docs with
      | none => .error (.notFound (joinSlash slug))
      | some d =>
        match expandItemsWith (fun t v => compileMdx docs fuel t v)
            (joinSlash slug :: visited) d.body with
        | .error e => .error e
        | .ok parts => .ok ⟨String.join parts, d.fm⟩

/-- Body expansion at a given fuel level (the form in which `compileMdx`
recurses). -/
def expandItems (docs : CDocs) (fuel : Nat) (visited : List String)
    (items : List BodyItem) : Except CErr (List String) :=
  expandItemsWith (fun t v => compileMdx docs fuel t v) visited items

/-- Embedding of `renderMdx`: composition of a page starts with an empty
visited set. -/
def renderMdx (docs : CDocs) (slug : List String) : Except CErr Composed :=
  compileMdx docs (docs.length + 1) slug []

theorem compileMdx_visited {docs : CDocs} {fuel : Nat} {slug visited : List String}
    (h : visited.contains (joinSlash slug) = true) :
    compileMdx docs fuel slug visited = .error (.circularInclude (joinSlash slug)) := by
  cases fuel
  · rw [compileMdx, if_pos h]
  · rw [compileMdx, if_pos h]

theorem expandItemsWith_ok_inc
    {recur : List String → List String → Except CErr Composed}
    {visited : List String} {items : List BodyItem} {parts : List String}
    (h : expandItemsWith recur visited items = .ok parts) :
    ∀ attr, BodyItem.inc attr ∈ items →
      ∃ c, recur (splitSlugParam attr) visited = .ok c := by
  induction items generalizing parts with
  | nil => intro attr ha; cases ha
  | cons i rest ih =>
    intro attr ha
    cases i with
    | text s =>
      rw [expandItemsWith] at h
      rcases List.mem_cons.mp ha with hh | ha'
      · simp at hh
      · cases he : expandItemsWith recur visited rest with
        | error e => rw [he] at h; cases h
        | ok ps => exact ih he attr ha'
    | inc a =>
      rw [expandItemsWith] at h
      by_cases ht : splitSlugParam a = []
      · rw [if_pos ht] at h; cases h
      · rw [if_neg ht] at h
        cases hr : recur (splitSlugParam a) visited with
        | error e => rw [hr] at h; cases h
        | ok c =>
          rw [hr] at h
          rcases List.mem_cons.mp ha with hh | ha'
          · injection hh with h1
            subst h1
            exact ⟨c, hr⟩
          · cases he : expandItemsWith recur visited rest with
            | error e => rw [he] at h; cases h
            | ok ps => exact ih he attr ha'

theorem expandItemsWith_append
    {recur : List String → List String → Except CErr Composed}
    {visited : List String} (l1 l2 : List BodyItem) :
    expandItemsWith recur visited (l1 ++ l2) =
      match expandItemsWith recur visited l1 with
      | .error e => .error e
      | .ok p1 =>
        match expandItemsWith recur visited l2 with
        | .error e => .error e
        | .ok p2 => .ok (p1 ++ p2) := by
  induction l1 with
  | nil =>
    rw [List.nil_append]
    show expandItemsWith recur visited l2 = _
    rw [expandItemsWith]
    cases expandItemsWith recur visited l2 <;> rfl
  | cons i rest ih =>
    cases i with
    | text s =>
      rw [List.cons_append, expandItemsWith, expandItemsWith, ih]
      cases expandItemsWith recur visited rest with
      | error e => rfl
      | ok p1 => cases expandItemsWith recur visited l2 <;> rfl
    | inc a =>
      rw [List.cons_append, expandItemsWith, expandItemsWith]
      by_cases ht : splitSlugParam a = []
      · rw [if_pos ht, if_pos ht]
      · rw [if_neg ht, if_neg ht]
        cases recur (splitSlugParam a) visited with
        | error e => rfl
        | ok c =>
          rw [ih]
          cases expandItemsWith recur visited rest with
          | error e => rfl
          | ok p1 => cases expandItemsWith recur visited l2 <;> rfl

/-- C3: whenever composition succeeds, the metadata of the composed
document is exactly the root document's own front matter — the front matter
of every transitively included document is discarded during splicing, at
any include depth. -/
theorem C3_root_metadata_only (docs : CDocs) (slug : List String) (c : Composed)
    (h : renderMdx docs slug = .ok c) :
    ∃ d, List.lookup slug docs = some d ∧ c.metadata = d.fm := by
  rw [renderMdx, compileMdx] at h
  have hnil : (([] : List String).contains (joinSlash slug)) = false := rfl
  rw [hnil, if_neg (by simp)] at h
  split at h
  · cases h
  · next d hl =>
    split at h
    · cases h
    · next parts he =>
      injection h with hc
      exact ⟨d, hl, by rw [← hc]⟩

/-- Fixture for the C3 witness: a single document with front matter and a
plain body. -/
def docsC3 : CDocs :=
  [(["a"], ⟨[("title", FmVal.str "A")], [BodyItem.text "hello"]⟩)]

/-- Closed witness for C3 at `docsC3`. -/
theorem C3_witness :
    ∃ d, List.lookup ["a"] docsC3 = some d ∧
      (Composed.mk "hello" [("title", FmVal.str "A")]).metadata = d.fm :=
  C3_root_metadata_only docsC3 ["a"] ⟨"hello", [("title", FmVal.str "A")]⟩ rfl

theorem expandItems_def (docs : CDocs) (fuel : Nat) (visited : List String)
    (items : List BodyItem) :
    expandItems docs fuel visited items =
      expandItemsWith (fun t v => compileMdx docs fuel t v) visited items := rfl

theorem contains_self_head (k : String) (rest : List String) :
    (k :: rest).contains k = true := by
  simp [List.contains_cons]

theorem renderMdx_eq (docs : CDocs) (slug : List String) (d : CDoc)
    (hl : List.lookup slug docs = some d) :
    renderMdx docs slug =
      match expandItems docs docs.length [joinSlash slug] d.body with
      | .error e => .error e
      | .ok parts => .ok ⟨String.join parts, d.fm⟩ := by
  rw [renderMdx, compileMdx]
  have hnil : (([] : List String).contains (joinSlash slug)) = false := rfl
  rw [hnil, if_neg (by simp), hl]
  rfl

/-- Fixture refuting C2 as stated: document `a` includes a missing target,
then itself, then the plain document `b` twice. -/
def docsC2 : CDocs :=
  [(["a"], ⟨[], [.inc "missing", .inc "a", .inc "b", .inc "b"]⟩),
   (["b"], ⟨[], [.text "hi"]⟩)]

/-- C2 counterexample: in `docsC2`, the body of `["a"]` contains a
directive naming `["a"]` itself (so the claim predicts `CircularInclude`)
and two sibling directives naming the acyclic `["b"]` (so the claim also
predicts success), yet composition fails with `NotFound` for the earlier
broken directive — neither `CircularInclude` nor success. -/
theorem C2_counterexample :
    renderMdx docsC2 ["a"] = .error (.notFound "missing") ∧
    BodyItem.inc "a" ∈ (CDoc.mk [] [.inc "missing", .inc "a", .inc "b", .inc "b"]).body ∧
    splitSlugParam "a" = ["a"] ∧
    (Except.error (CErr.notFound "missing") : Except CErr Composed) ≠
      .error (.circularInclude (joinSlash ["a"])) ∧
    ¬ ∃ c, renderMdx docsC2 ["a"] = .ok c := by
  refine ⟨rfl, by decide, rfl, by simp, ?_⟩
  rintro ⟨c, hc⟩
  rw [show renderMdx docsC2 ["a"] = .error (.notFound "missing") from rfl] at hc
  cases hc

/-- C2 (amended): composition of a self-including document always fails and
never loops; the error is `CircularInclude` as soon as every directive
preceding the self-reference resolves; a mutual-inclusion pair fails with
`CircularInclude` under the same proviso; and a document that includes the
same composable document twice through sibling directives composes
successfully, both directives receiving the same ancestor chain. -/
theorem C2_cycle_detection_amended :
    (∀ (docs : CDocs) (slug : List String) (d : CDoc) (pre post : List BodyItem)
        (attr : String),
      List.lookup slug docs = some d →
      d.body = pre ++ BodyItem.inc attr :: post →
      splitSlugParam attr = slug →
      ∃ e, renderMdx docs slug = .error e) ∧
    (∀ (docs : CDocs) (slug : List String) (d : CDoc) (pre post : List BodyItem)
        (attr : String) (ps : List String),
      List.lookup slug docs = some d →
      d.body = pre ++ BodyItem.inc attr :: post →
      splitSlugParam attr = slug →
      slug ≠ [] →
      expandItems docs docs.length [joinSlash slug] pre = .ok ps →
      renderMdx docs slug = .error (.circularInclude (joinSlash slug))) ∧
    (∀ (docs : CDocs) (A B : List String) (dA dB : CDoc)
        (preA postA preB postB : List BodyItem) (attr1 attr2 : String)
        (psA psB : List String),
      List.lookup A docs = some dA →
      List.lookup B docs = some dB →
      dA.body = preA ++ BodyItem.inc attr1 :: postA →
      splitSlugParam attr1 = B →
      B ≠ [] →
      dB.body = preB ++ BodyItem.inc attr2 :: postB →
      splitSlugParam attr2 = A →
      A ≠ [] →
      joinSlash B ≠ joinSlash A →
      expandItems docs docs.length [joinSlash A] preA = .ok psA →
      expandItems docs (docs.length - 1) [joinSlash B, joinSlash A] preB = .ok psB →
      renderMdx docs A = .error (.circularInclude (joinSlash A))) ∧
    (∀ (docs : CDocs) (A : List String) (dA : CDoc)
        (pre mid post : List BodyItem) (attr1 attr2 : String) (B : List String)
        (cB : Composed) (p1 p2 p3 : List String),
      List.lookup A docs = some dA →
      dA.body = pre ++ BodyItem.inc attr1 :: (mid ++ BodyItem.inc attr2 :: post) →
      splitSlugParam attr1 = B →
      splitSlugParam attr2 = B →
      B ≠ [] →
      compileMdx docs docs.length B [joinSlash A] = .ok cB →
      expandItems docs docs.length [joinSlash A] pre = .ok p1 →
      expandItems docs docs.length [joinSlash A] mid = .ok p2 →
      expandItems docs docs.length [joinSlash A] post = .ok p3 →
      renderMdx docs A =
        .ok ⟨String.join (p1 ++ cB.body :: (p2 ++ cB.body :: p3)), dA.fm⟩) := by
  refine ⟨?_, ?_, ?_, ?_⟩
  · intro docs slug d pre post attr hl hbody hattr
    cases hr : renderMdx docs slug with
    | error e => exact ⟨e, rfl⟩
    | ok c =>
      exfalso
      rw [renderMdx_eq docs slug d hl] at hr
      cases he : expandItems docs docs.length [joinSlash slug] d.body with
      | error e => rw [he] at hr; cases hr
      | ok parts =>
        have hmem : BodyItem.inc attr ∈ d.body := by
          rw [hbody]
          exact List.mem_append_right _ (List.mem_cons_self _ _)
        rw [expandItems_def] at he
        obtain ⟨c0, hc0⟩ := expandItemsWith_ok_inc he attr hmem
        rw [hattr, compileMdx_visited (contains_self_head _ _)] at hc0
        cases hc0
  · intro docs slug d pre post attr ps hl hbody hattr hne hpre
    rw [expandItems_def] at hpre
    rw [renderMdx_eq docs slug d hl, expandItems_def, hbody,
      expandItemsWith_append, hpre]
    rw [expandItemsWith, hattr, if_neg hne,
      compileMdx_visited (contains_self_head _ _)]
  · intro docs A B dA dB preA postA preB postB attr1 attr2 psA psB hlA hlB hbA
      ha1 hBne hbB ha2 hAne hkne hpreA hpreB
    have hlen : docs.length - 1 + 1 = docs.length := by
      cases docs with
      | nil => cases hlA
      | cons p ds => simp
    rw [expandItems_def] at hpreA hpreB
    rw [renderMdx_eq docs A dA hlA, expandItems_def, hbA,
      expandItemsWith_append, hpreA]
    rw [expandItemsWith, ha1, if_neg hBne]
    rw [← hlen, compileMdx]
    rw [if_neg (by simp [List.contains_cons, hkne]), hlB]
    dsimp only
    rw [hbB, expandItemsWith_append, hlen, hpreB]
    rw [expandItemsWith, ha2, if_neg hAne]
    rw [compileMdx_visited (by simp [List.contains_cons])]
  · intro docs A dA pre mid post attr1 attr2 B cB p1 p2 p3 hlA hbA ha1 ha2
      hBne hcB hp1 hp2 hp3
    rw [expandItems_def] at hp1 hp2 hp3
    rw [renderMdx_eq docs A dA hlA, expandItems_def, hbA,
      expandItemsWith_append, hp1]
    rw [expandItemsWith, ha1, if_neg hBne, hcB]
    rw [expandItemsWith_append, hp2]
    rw [expandItemsWith, ha2, if_neg hBne, hcB, hp3]

/-- Fixture for the C2 witness: a self-including document `s` (with a
resolving text prefix), a mutual-inclusion pair `a`/`b`, and a document `p`
including the plain document `q` twice. -/
def docsC2w : CDocs :=
  [(["s"], ⟨[], [.text "x", .inc "s"]⟩),
   (["a"], ⟨[], [.inc "b"]⟩),
   (["b"], ⟨[], [.inc "a"]⟩),
   (["p"], ⟨[], [.text "u", .inc "q", .text "v", .inc "q", .text "w"]⟩),
   (["q"], ⟨[], [.text "Q"]⟩)]

/-- Closed witness for the amended C2 at `docsC2w`: the self-include and the
mutual pair fail with `CircularInclude`; the double include of `q` composes
successfully. -/
theorem C2_witness :
    (∃ e, renderMdx docsC2w ["s"] = .error e) ∧
    renderMdx docsC2w ["s"] = .error (.circularInclude "s") ∧
    renderMdx docsC2w ["a"] = .error (.circularInclude "a") ∧
    renderMdx docsC2w ["p"] =
      .ok ⟨String.join (["u"] ++ "Q" :: (["v"] ++ "Q" :: ["w"])), []⟩ := by
  refine ⟨?_, ?_, ?_, ?_⟩
  · exact C2_cycle_detection_amended.1 docsC2w ["s"] ⟨[], [.text "x", .inc "s"]⟩
      [.text "x"] [] "s" rfl rfl rfl
  · exact C2_cycle_detection_amended.2.1 docsC2w ["s"] ⟨[], [.text "x", .inc "s"]⟩
      [.text "x"] [] "s" ["x"] rfl rfl rfl (by decide) rfl
  · exact C2_cycle_detection_amended.2.2.1 docsC2w ["a"] ["b"]
      ⟨[], [.inc "b"]⟩ ⟨[], [.inc "a"]⟩ [] [] [] [] "b" "a" [] []
      rfl rfl rfl rfl (by decide) rfl rfl (by decide) (by decide) rfl rfl
  · exact C2_cycle_detection_amended.2.2.2 docsC2w ["p"]
      ⟨[], [.text "u", .inc "q", .text "v", .inc "q", .text "w"]⟩
      [.text "u"] [.text "v"] [.text "w"] "q" "q" ["q"] ⟨"Q", []⟩
      ["u"] ["v"] ["w"] rfl rfl rfl rfl (by decide) rfl rfl rfl rfl

/-! ### Name comparison (`String.prototype.localeCompare`) and stable sort -/

theorem char_toNat_inj {a b : Char} (h : a.toNat = b.toNat) : a = b := by
  have h2 := Char.ofNat_toNat a
  have h3 := Char.ofNat_toNat b
  rw [← h2, ← h3, h]

/-- Character comparison by code point. -/
def cmpChar (a b : Char) : Ordering :=
  compare a.toNat b.toNat

/-- Lexicographic comparison of char lists. -/
def cmpChList : List Char → List Char → Ordering
  | [], [] => .eq
  | [], _ :: _ => .lt
  | _ :: _, [] => .gt
  | a :: as, b :: bs => (cmpChar a b).then (cmpChList as bs)

/-- Model of `String.prototype.localeCompare` under the default locale,
restricted to the ASCII names appearing in this development:
case-insensitive primary comparison, code-unit tiebreak. -/
def localeCompare (a b : String) : Ordering :=
  (cmpChList (a.data.map Char.toLower) (b.data.map Char.toLower)).then
    (cmpChList a.data b.data)

theorem then_eq_eq {o1 o2 : Ordering} :
    o1.then o2 = .eq ↔ o1 = .eq ∧ o2 = .eq := by
  cases o1 <;> simp [Ordering.then]

theorem cmpChar_eq_iff {a b : Char} : cmpChar a b = .eq ↔ a = b := by
  rw [cmpChar, Nat.compare_eq_eq]
  exact ⟨char_toNat_inj, fun h => by rw [h]⟩

theorem cmpChar_gt_iff {a b : Char} : cmpChar a b = .gt ↔ cmpChar b a = .lt := by
  rw [cmpChar, cmpChar, Nat.compare_eq_gt, Nat.compare_eq_lt]

theorem cmpChar_lt_trans {a b c : Char} (h1 : cmpChar a b = .lt)
    (h2 : cmpChar b c = .lt) : cmpChar a c = .lt := by
  rw [cmpChar, Nat.compare_eq_lt] at h1 h2 ⊢
  exact Nat.lt_trans h1 h2

theorem cmpChList_eq_iff : ∀ {a b : List Char}, cmpChList a b = .eq ↔ a = b := by
  intro a
  induction a with
  | nil => intro b; cases b <;> simp [cmpChList]
  | cons x xs ih =>
    intro b
    cases b with
    | nil => simp [cmpChList]
    | cons y ys =>
      rw [cmpChList, then_eq_eq, cmpChar_eq_iff, ih]
      simp

theorem cmpChList_gt_iff : ∀ {a b : List Char},
    cmpChList a b = .gt ↔ cmpChList b a = .lt := by
  intro a
  induction a with
  | nil => intro b; cases b <;> simp [cmpChList]
  | cons x xs ih =>
    intro b
    cases b with
    | nil => simp [cmpChList]
    | cons y ys =>
      rw [cmpChList, cmpChList]
      cases hc : cmpChar x y with
      | lt =>
        have hyx : cmpChar y x ≠ .eq := by
          intro h
          have hxy : y = x := cmpChar_eq_iff.mp h
          subst hxy
          rw [show cmpChar y y = .eq from cmpChar_eq_iff.mpr rfl] at hc
          cases hc
        have hyx2 : cmpChar y x ≠ .lt := by
          intro h
          rw [← cmpChar_gt_iff] at h
          rw [h] at hc
          cases hc
        cases hyx3 : cmpChar y x with
        | lt => exact absurd hyx3 hyx2
        | eq => exact absurd hyx3 hyx
        | gt => simp [Ordering.then]
      | eq =>
        have : cmpChar y x = .eq := cmpChar_eq_iff.mpr (cmpChar_eq_iff.mp hc).symm
        rw [this]
        simpa [Ordering.then] using ih
      | gt =>
        have : cmpChar y x = .lt := cmpChar_gt_iff.mp hc
        rw [this]
        simp [Ordering.then]

theorem cmpChList_lt_trans : ∀ {a b c : List Char},
    cmpChList a b = .lt → cmpChList b c = .lt → cmpChList a c = .lt := by
  intro a
  induction a with
  | nil =>
    intro b c h1 h2
    cases b with
    | nil => exact h2
    | cons y ys =>
      cases c with
      | nil => cases h2
      | cons z zs => rfl
  | cons x xs ih =>
    intro b c h1 h2
    cases b with
    | nil => cases h1
    | cons y ys =>
      cases c with
      | nil => cases h2
      | cons z zs =>
        rw [cmpChList] at h1 h2 ⊢
        cases hxy : cmpChar x y with
        | gt => rw [hxy] at h1; cases h1
        | eq =>
          have hx : x = y := cmpChar_eq_iff.mp hxy
          subst hx
          rw [show cmpChar x x = .eq from cmpChar_eq_iff.mpr rfl] at h1
          simp only [Ordering.then] at h1
          cases hxz : cmpChar x z with
          | lt => simp [Ordering.then]
          | eq =>
            have hx2 : x = z := cmpChar_eq_iff.mp hxz
            subst hx2
            rw [show cmpChar x x = .eq from cmpChar_eq_iff.mpr rfl] at h2
            simp only [Ordering.then] at h2 ⊢
            exact ih h1 h2
          | gt =>
            rw [hxz] at h2
            simp only [Ordering.then] at h2
            cases h2
        | lt =>
          cases hyz : cmpChar y z with
          | gt => rw [hyz] at h2; cases h2
          | eq =>
            have hy : y = z := cmpChar_eq_iff.mp hyz
            subst hy
            rw [hxy]
            simp [Ordering.then]
          | lt =>
            rw [cmpChar_lt_trans hxy hyz]
            simp [Ordering.then]

theorem localeCompare_eq_imp {a b : String} (h : localeCompare a b = .eq) :
    a = b := by
  rw [localeCompare, then_eq_eq] at h
  exact String.ext (cmpChList_eq_iff.mp h.2)

theorem localeCompare_gt_iff {a b : String} :
    localeCompare a b = .gt ↔ localeCompare b a = .lt := by
  rw [localeCompare, localeCompare]
  cases hc : cmpChList (a.data.map Char.toLower) (b.data.map Char.toLower) with
  | lt =>
    have h1 : cmpChList (b.data.map Char.toLower) (a.data.map Char.toLower) = .gt :=
      cmpChList_gt_iff.mpr hc
    rw [h1]
    simp [Ordering.then]
  | eq =>
    have h1 : cmpChList (b.data.map Char.toLower) (a.data.map Char.toLower) = .eq :=
      cmpChList_eq_iff.mpr (cmpChList_eq_iff.mp hc).symm
    rw [h1]
    simp only [Ordering.then]
    exact cmpChList_gt_iff
  | gt =>
    have h1 : cmpChList (b.data.map Char.toLower) (a.data.map Char.toLower) = .lt :=
      cmpChList_gt_iff.mp hc
    rw [h1]
    simp [Ordering.then]

theorem localeCompare_lt_trans {a b c : String}
    (h1 : localeCompare a b = .lt) (h2 : localeCompare b c = .lt) :
    localeCompare a c = .lt := by
  rw [localeCompare] at h1 h2 ⊢
  cases hab : cmpChList (a.data.map Char.toLower) (b.data.map Char.toLower) with
  | gt => rw [hab] at h1; cases h1
  | eq =>
    have he : a.data.map Char.toLower = b.data.map Char.toLower :=
      cmpChList_eq_iff.mp hab
    rw [hab] at h1
    simp only [Ordering.then] at h1
    cases hbc : cmpChList (b.data.map Char.toLower) (c.data.map Char.toLower) with
    | gt => rw [hbc] at h2; cases h2
    | eq =>
      have he2 : b.data.map Char.toLower = c.data.map Char.toLower :=
        cmpChList_eq_iff.mp hbc
      rw [hbc] at h2
      simp only [Ordering.then] at h2
      rw [cmpChList_eq_iff.mpr (he.trans he2)]
      simp only [Ordering.then]
      exact cmpChList_lt_trans h1 h2
    | lt =>
      rw [he, hbc]
      simp [Ordering.then]
  | lt =>
    cases hbc : cmpChList (b.data.map Char.toLower) (c.data.map Char.toLower) with
    | gt => rw [hbc] at h2; cases h2
    | eq =>
      have he2 : b.data.map Char.toLower = c.data.map Char.toLower :=
        cmpChList_eq_iff.mp hbc
      rw [← he2, hab]
      simp [Ordering.then]
    | lt =>
      rw [cmpChList_lt_trans hab hbc]
      simp [Ordering.then]

theorem localeCompare_le_trans {a b c : String}
    (h1 : localeCompare a b ≠ .gt) (h2 : localeCompare b c ≠ .gt) :
    localeCompare a c ≠ .gt := by
  cases hab : localeCompare a b with
  | gt => exact absurd hab h1
  | eq =>
    have := localeCompare_eq_imp hab
    subst this
    exact h2
  | lt =>
    cases hbc : localeCompare b c with
    | gt => exact absurd hbc h2
    | eq =>
      have := localeCompare_eq_imp hbc
      subst this
      rw [hab]
      simp
    | lt =>
      rw [localeCompare_lt_trans hab hbc]
      simp

theorem localeCompare_le_total (a b : String) :
    localeCompare a b ≠ .gt ∨ localeCompare b a ≠ .gt := by
  cases hab : localeCompare a b with
  | lt => exact Or.inl (by simp)
  | eq => exact Or.inl (by simp)
  | gt =>
    right
    rw [localeCompare_gt_iff.mp hab]
    simp

/-- Insertion step of a stable sort with comparator-derived `le` (an element
is inserted before the first element it does not compare after). -/
def insertLe {α : Type} (le : α → α → Bool) (x : α) : List α → List α
  | [] => [x]
  | y :: ys => if le x y then x :: y :: ys else y :: insertLe le x ys

/-- Stable sort modelling JS `Array.prototype.sort(comparator)` (a stable
sort; any stable sort agrees with it for a consistent comparator). -/
def sortLe {α : Type} (le : α → α → Bool) : List α → List α
  | [] => []
  | x :: xs => insertLe le x (sortLe le xs)

theorem insertLe_perm {α : Type} (le : α → α → Bool) (x : α) :
    ∀ (l : List α), (insertLe le x l).Perm (x :: l) := by
  intro l
  induction l with
  | nil => exact List.Perm.refl _
  | cons y ys ih =>
    rw [insertLe]
    by_cases h : le x y
    · rw [if_pos h]
    · rw [if_neg h]
      exact (List.Perm.cons y ih).trans (List.Perm.swap x y ys)

theorem sortLe_perm {α : Type} (le : α → α → Bool) :
    ∀ (l : List α), (sortLe le l).Perm l := by
  intro l
  induction l with
  | nil => exact List.Perm.refl _
  | cons x xs ih =>
    exact (insertLe_perm le x (sortLe le xs)).trans (List.Perm.cons x ih)

theorem sortLe_mem {α : Type} {le : α → α → Bool} {a : α} {l : List α} :
    a ∈ sortLe le l ↔ a ∈ l :=
  (sortLe_perm le l).mem_iff

theorem insertLe_pairwise {α : Type} {le : α → α → Bool}
    (htrans : ∀ a b c, le a b = true → le b c = true → le a c = true)
    (htotal : ∀ a b, le a b = true ∨ le b a = true) (x : α) :
    ∀ {l : List α}, l.Pairwise (fun a b => le a b = true) →
      (insertLe le x l).Pairwise (fun a b => le a b = true) := by
  intro l
  induction l with
  | nil => intro _; simpa [insertLe] using List.Pairwise.nil
  | cons y ys ih =>
    intro hp
    rw [insertLe]
    rcases List.pairwise_cons.mp hp with ⟨hy, hys⟩
    by_cases h : le x y
    · rw [if_pos h]
      refine List.pairwise_cons.mpr ⟨?_, hp⟩
      intro z hz
      rcases List.mem_cons.mp hz with rfl | hz
      · simpa using h
      · exact htrans x y z (by simpa using h) (hy z hz)
    · rw [if_neg h]
      refine List.pairwise_cons.mpr ⟨?_, ih hys⟩
      intro z hz
      have hz' := (insertLe_perm le x ys).mem_iff.mp hz
      rcases List.mem_cons.mp hz' with rfl | hz''
      · rcases htotal y z with hy2 | hx2
        · exact hy2
        · exact absurd hx2 (by simpa using h)
      · exact hy z hz''

theorem sortLe_pairwise {α : Type} {le : α → α → Bool}
    (htrans : ∀ a b c, le a b = true → le b c = true → le a c = true)
    (htotal : ∀ a b, le a b = true ∨ le b a = true) :
    ∀ (l : List α), (sortLe le l).Pairwise (fun a b => le a b = true) := by
  intro l
  induction l with
  | nil => exact List.Pairwise.nil
  | cons x xs ih => exact insertLe_pairwise htrans htotal x ih

/-! ### Further JS string helpers for the tree builder -/

/-- Embedding of JS `String.prototype.startsWith`. -/
def startsWithStr (s p : String) : Bool :=
  startsWithCh s.data p.data

/-- Embedding of JS `String.prototype.endsWith`. -/
def endsWithStr (s suf : String) : Bool :=
  startsWithCh s.data.reverse suf.data.reverse

/-- Embedding of `name.slice(0, -CONTENT_EXTENSION.length)` (dropping the
four characters of `".mdx"`). -/
def dropMdxExt (s : String) : String :=
  String.mk (s.data.take (s.data.length - 4))

/-! ### ContentStore and TreeBuilder (`lib/mdx.ts`) -/

/-- A stored `.mdx` file: front matter and body content, the two components
`gray-matter` separates. -/
structure Mdx where
  fm : List (String × FmVal)
  content : String
deriving DecidableEq, Repr

/-- The filesystem under the content root, as an inductive tree (used by the
recursive full-tree walk `collectDocs`). -/
inductive FsNode where
  | file (name : String) (doc : Mdx)
  | dir (name : String) (children : List FsNode)
deriving Repr

/-- The `DocNode` record produced by `collectDocs`: files carry their base
name (extension stripped) and slug; directories carry their recursively
collected children. -/
inductive DocNode where
  | file (name : String) (slug : List String) (doc : Mdx)
  | dir (name : String) (slug : List String) (children : List DocNode)
deriving Repr

/-- The name a `DocNode` is sorted by. -/
def DocNode.name : DocNode → String
  | .file n _ _ => n
  | .dir n _ _ => n

/-- The boolean order used to model `.sort((a, b) =>
a.name.localeCompare(b.name))`. -/
def nodeLe (a b : DocNode) : Bool :=
  match localeCompare a.name b.name with
  | .gt => false
  | _ => true

mutual

/-- Embedding of the per-entry branch of `collectDocs` (`lib/mdx.ts`): a
directory is recursively collected and pruned when the collection is empty
(`if (!children.length) return null`); a file is kept only with the `.mdx`
extension, under its base name. -/
def collectOne (ancestorSlug : List String) : FsNode → Option DocNode
  | .file name doc =>
    if endsWithStr name ".mdx" then
      some (.file (dropMdxExt name) (ancestorSlug ++ [dropMdxExt name]) doc)
    else none
  | .dir name children =>
    let directorySlug := ancestorSlug ++ [name]
    let sub := sortLe nodeLe (collectMany directorySlug children)
    if sub.isEmpty then none
    else some (.dir name directorySlug sub)
termination_by structural n => n

/-- The `Promise.all(entries.map(...))` + `filter(node => node !== null)`
pipeline of `collectDocs`, before the sort. -/
def collectMany (ancestorSlug : List String) : List FsNode → List DocNode
  | [] => []
  | e :: rest =>
    match collectOne ancestorSlug e with
    | none => collectMany ancestorSlug rest
    | some d => d :: collectMany ancestorSlug rest
termination_by structural l => l

end

/-- Embedding of `collectDocs` at one directory level: collect each entry,
drop the `null`s, sort by name. -/
def collectDocs (ancestorSlug : List String) (entries : List FsNode) : List DocNode :=
  sortLe nodeLe (collectMany ancestorSlug entries)

/-- Embedding of `getDocsTree`: the full-tree walk from the content root. -/
def getDocsTree (root : List FsNode) : List DocNode :=
  collectDocs [] root

mutual

/-- Does this collected node have at least one `file` descendant? -/
def hasFileDesc : DocNode → Bool
  | .file _ _ _ => true
  | .dir _ _ children => anyFileDesc children
termination_by structural n => n

def anyFileDesc : List DocNode → Bool
  | [] => false
  | c :: rest => hasFileDesc c || anyFileDesc rest
termination_by structural l => l

end

mutual

/-- Check that every directory node in a collected tree (the node itself and
all nested ones) has at least one `file` descendant. -/
def goodTree : DocNode → Bool
  | .file _ _ _ => true
  | .dir _ _ children => anyFileDesc children && goodForest children
termination_by structural n => n

def goodForest : List DocNode → Bool
  | [] => true
  | c :: rest => goodTree c && goodForest rest
termination_by structural l => l

end

/-- Executable pairwise check for a boolean order. -/
def pairwiseLeB {α : Type} (le : α → α → Bool) : List α → Bool
  | [] => true
  | x :: xs => xs.all (fun y => le x y) && pairwiseLeB le xs

mutual

/-- Check that every children sequence in a collected tree is sorted by
`nodeLe` (name order). -/
def sortedDeep : DocNode → Bool
  | .file _ _ _ => true
  | .dir _ _ children => pairwiseLeB nodeLe children && sortedForest children
termination_by structural n => n

def sortedForest : List DocNode → Bool
  | [] => true
  | c :: rest => sortedDeep c && sortedForest rest
termination_by structural l => l

end

/-! ### ContentStore world and `getChildNodes` (the one-level listing) -/

/-- A directory entry as returned by `fs.readdir(..., withFileTypes)`. -/
structure DirEnt where
  name : String
  isDir : Bool
deriving DecidableEq, Repr

/-- The filesystem as a finite map from absolute paths (segment lists) to
directory listings and file contents; this is the view `getChildNodes`
accesses through `path.join`-resolved paths. -/
structure World where
  dirs : List (List String × List DirEnt)
  files : List (List String × Mdx)
deriving Repr

/-- The content root `path.join(process.cwd(), "content")`, with
`process.cwd() = /app`. -/
def CONTENT_ROOT : List String := ["app", "content"]

/-- Embedding of Node's `path.join(base, ...segs)` on POSIX: split each
segment on `/`, then resolve `.`, `..` and empty segments against the
(already absolute, normalized) base.  A backslash is an ordinary name
character on POSIX. -/
def normJoin (base : List String) (segs : List String) : List String :=
  (segs.flatMap fun s => (splitOnSlashCh s.data).map (fun cs => String.mk cs)).foldl
    (fun acc seg =>
      if seg = "" || seg = "." then acc
      else if seg = ".." then acc.dropLast
      else acc ++ [seg]) base

inductive DocType where
  | file
  | directory
deriving DecidableEq, Repr

/-- The `DocListItem` record returned by `getChildNodes`. -/
structure DocListItem where
  type : DocType
  name : String
  slug : List String
  hasChildren : Option Bool
  title : Option String
deriving DecidableEq, Repr

/-- The comparator of `getChildNodes`: directories sort before files, then
by name (`a.type !== b.type ? (a.type === "directory" ? -1 : 1) :
a.name.localeCompare(b.name)`). -/
def cmpItems (a b : DocListItem) : Ordering :=
  if a.type = b.type then localeCompare a.name b.name
  else if a.type = .directory then .lt
  else .gt

def itemLe (a b : DocListItem) : Bool :=
  match cmpItems a b with
  | .gt => false
  | _ => true

/-- The per-entry step of `getChildNodes`'s `Promise.all(entries.map(...))`:
skip hidden entries; keep every subdirectory (reading one level deeper for
`hasChildren`); keep `.mdx` files (reading their front matter for a title);
drop everything else. -/
def childItem (w : World) (slug targetPath : List String) (e : DirEnt) :
    Except String (Option DocListItem) :=
  if startsWithStr e.name "." then .ok none
  else if e.isDir then
    match List.lookup (targetPath ++ [e.name]) w.dirs with
    | none => .error "readdir failed"
    | some childEntries =>
      .ok (some
        { type := .directory, name := e.name, slug := slug ++ [e.name],
          hasChildren := some (childEntries.any fun child =>
            child.isDir || endsWithStr child.name ".mdx"),
          title := none })
  else if endsWithStr e.name ".mdx" then
    match List.lookup (targetPath ++ [e.name]) w.files with
    | none => .error "read failed"
    | some doc =>
      .ok (some
        { type := .file, name := dropMdxExt e.name,
          slug := slug ++ [dropMdxExt e.name], hasChildren := none,
          title := match List.lookup "title" doc.fm with
            | some (.str t) => some t
            | _ => none })
  else .ok none

/-- Embedding of `getChildNodes` (`lib/mdx.ts`): resolve the requested path
with `path.join` (no slug validation), `stat` it, reject non-directories,
read the listing, build an item per entry via `childItem`, and sort
directories-before-files then by name. -/
def getChildNodes (w : World) (slug : List String) : Except String (List DocListItem) :=
  let targetPath := normJoin CONTENT_ROOT slug
  match List.lookup targetPath w.dirs with
  | some entries =>
    match entries.mapM (childItem w slug targetPath) with
    | .error e => .error e
    | .ok items => .ok (sortLe itemLe (items.filterMap id))
  | none =>
    match List.lookup targetPath w.files with
    | some _ => .error "Requested slug is not a directory"
    | none => .error "Requested path does not exist"

/-! ### SearchIndexer: `getDocsIndex` -/

/-- An entry of the search index (`DocIndexEntry` in `lib/mdx.ts`). -/
structure DocIndexEntry where
  slug : List String
  title : String
  content : String
deriving DecidableEq, Repr

/-- The display title chosen by `getDocsIndex`: the front-matter `title`
field when it is a string, else the last slug segment verbatim
(`node.slug[node.slug.length - 1]`). -/
def titleFor (fm : List (String × FmVal)) (slug : List String) : String :=
  match List.lookup "title" fm with
  | some (.str t) => t
  | _ => (slug.getLast?).getD ""

/-- The index record built for one file node. -/
def mkIndexEntry (slug : List String) (doc : Mdx) : DocIndexEntry :=
  ⟨slug, titleFor doc.fm slug, stripMarkdown doc.content⟩

mutual

/-- Embedding of `getDocsIndex`'s `visit`: a file node is re-read through
`readMdxFile` (whose `assertSafeSlug` check can reject degenerate names)
and contributes one record; a directory node contributes its children's
records. -/
def indexOne : DocNode → Except String (List DocIndexEntry)
  | .file _ slug doc =>
    if assertSafeSlug slug then .ok [mkIndexEntry slug doc]
    else .error "Invalid slug segment"
  | .dir _ _ children => indexMany children
termination_by structural n => n

def indexMany : List DocNode → Except String (List DocIndexEntry)
  | [] => .ok []
  | n :: rest =>
    match indexOne n with
    | .error e => .error e
    | .ok es =>
      match indexMany rest with
      | .error e => .error e
      | .ok es' => .ok (es ++ es')
termination_by structural l => l

end

def titleLe (a b : DocIndexEntry) : Bool :=
  match localeCompare a.title b.title with
  | .gt => false
  | _ => true

/-- Embedding of `getDocsIndex` (`lib/mdx.ts`): walk the full tree, build a
record per file (title from front matter, else last slug segment; content
through `stripMarkdown`), and sort by title. -/
def getDocsIndex (root : List FsNode) : Except String (List DocIndexEntry) :=
  match indexMany (getDocsTree root) with
  | .error e => .error e
  | .ok entries => .ok (sortLe titleLe entries)

mutual

/-- The `(slug, document)` pairs of file nodes in a collected tree
(observer used to state which files feed the index). -/
def treeFiles : DocNode → List (List String × Mdx)
  | .file _ slug doc => [(slug, doc)]
  | .dir _ _ children => treeFilesL children
termination_by structural n => n

def treeFilesL : List DocNode → List (List String × Mdx)
  | [] => []
  | c :: rest => treeFiles c ++ treeFilesL rest
termination_by structural l => l

end

/-! ### Order facts for the tree comparators -/

theorem nodeLe_iff {a b : DocNode} :
    nodeLe a b = true ↔ localeCompare a.name b.name ≠ .gt := by
  cases h : localeCompare a.name b.name <;> simp [nodeLe, h]

theorem nodeLe_trans (a b c : DocNode) (h1 : nodeLe a b = true)
    (h2 : nodeLe b c = true) : nodeLe a c = true :=
  nodeLe_iff.mpr (localeCompare_le_trans (nodeLe_iff.mp h1) (nodeLe_iff.mp h2))

theorem nodeLe_total (a b : DocNode) : nodeLe a b = true ∨ nodeLe b a = true := by
  rcases localeCompare_le_total a.name b.name with h | h
  · exact Or.inl (nodeLe_iff.mpr h)
  · exact Or.inr (nodeLe_iff.mpr h)

theorem itemLe_iff {a b : DocListItem} :
    itemLe a b = true ↔ cmpItems a b ≠ .gt := by
  cases h : cmpItems a b <;> simp [itemLe, h]

theorem itemLe_trans (a b c : DocListItem) (h1 : itemLe a b = true)
    (h2 : itemLe b c = true) : itemLe a c = true := by
  rw [itemLe_iff] at h1 h2 ⊢
  rw [cmpItems] at h1 h2 ⊢
  cases hat : a.type <;> cases hbt : b.type <;> cases hct : c.type <;>
    rw [hat, hbt] at h1 <;> rw [hbt, hct] at h2 <;>
    first
      | (simp at h1; done)
      | (simp at h2; done)
      | (simp; done)
      | (simp at h1 h2 ⊢; exact localeCompare_le_trans h1 h2)

theorem itemLe_total (a b : DocListItem) : itemLe a b = true ∨ itemLe b a = true := by
  rw [itemLe_iff, itemLe_iff, cmpItems, cmpItems]
  cases hat : a.type <;> cases hbt : b.type
  · rcases localeCompare_le_total a.name b.name with h | h
    · exact Or.inl (by simpa using h)
    · exact Or.inr (by simpa using h)
  · exact Or.inr (by simp)
  · exact Or.inl (by simp)
  · rcases localeCompare_le_total a.name b.name with h | h
    · exact Or.inl (by simpa using h)
    · exact Or.inr (by simpa using h)

theorem titleLe_iff {a b : DocIndexEntry} :
    titleLe a b = true ↔ localeCompare a.title b.title ≠ .gt := by
  cases h : localeCompare a.title b.title <;> simp [titleLe, h]

/-! ### Bridging lemmas for the mutual tree predicates -/

theorem anyFileDesc_eq_any (l : List DocNode) :
    anyFileDesc l = l.any (fun c => hasFileDesc c) := by
  induction l with
  | nil => rfl
  | cons c rest ih => rw [anyFileDesc, List.any_cons, ih]

theorem goodForest_eq_all (l : List DocNode) :
    goodForest l = l.all (fun c => goodTree c) := by
  induction l with
  | nil => rfl
  | cons c rest ih => rw [goodForest, List.all_cons, ih]

theorem sortedForest_eq_all (l : List DocNode) :
    sortedForest l = l.all (fun c => sortedDeep c) := by
  induction l with
  | nil => rfl
  | cons c rest ih => rw [sortedForest, List.all_cons, ih]

theorem pairwiseLeB_iff {α : Type} {le : α → α → Bool} :
    ∀ {l : List α}, pairwiseLeB le l = true ↔ l.Pairwise (fun a b => le a b = true) := by
  intro l
  induction l with
  | nil => simp [pairwiseLeB]
  | cons x xs ih =>
    rw [pairwiseLeB, Bool.and_eq_true, List.pairwise_cons, ih, List.all_eq_true]

theorem collectMany_mem_cases {anc : List String} {e : FsNode} {rest : List FsNode}
    {n : DocNode} (h : n ∈ collectMany anc (e :: rest)) :
    collectOne anc e = some n ∨ n ∈ collectMany anc rest := by
  rw [collectMany] at h
  cases hc : collectOne anc e with
  | none => rw [hc] at h; exact Or.inr h
  | some d =>
    rw [hc] at h
    rcases List.mem_cons.mp h with rfl | h'
    · exact Or.inl rfl
    · exact Or.inr h'

mutual

theorem collectOne_good (anc : List String) (e : FsNode) :
    ∀ n, collectOne anc e = some n → goodTree n = true ∧ hasFileDesc n = true := by
  cases e with
  | file name doc =>
    intro n h
    rw [collectOne] at h
    by_cases hm : endsWithStr name ".mdx" = true
    · rw [if_pos hm] at h
      injection h with h1
      subst h1
      exact ⟨rfl, rfl⟩
    · rw [if_neg hm] at h
      cases h
  | dir name children =>
    intro n h
    rw [collectOne] at h
    by_cases hs : (sortLe nodeLe (collectMany (anc ++ [name]) children)).isEmpty = true
    · rw [if_pos hs] at h
      cases h
    · rw [if_neg hs] at h
      injection h with h1
      subst h1
      have hmemgood : ∀ c ∈ sortLe nodeLe (collectMany (anc ++ [name]) children),
          goodTree c = true ∧ hasFileDesc c = true := by
        intro c hc
        exact collectMany_good (anc ++ [name]) children c (sortLe_mem.mp hc)
      have hsubne : sortLe nodeLe (collectMany (anc ++ [name]) children) ≠ [] := by
        intro hh
        rw [hh] at hs
        exact hs rfl
      obtain ⟨c0, hc0⟩ := List.exists_mem_of_ne_nil _ hsubne
      have hany : anyFileDesc (sortLe nodeLe (collectMany (anc ++ [name]) children)) = true := by
        rw [anyFileDesc_eq_any, List.any_eq_true]
        exact ⟨c0, hc0, (hmemgood c0 hc0).2⟩
      have hall : goodForest (sortLe nodeLe (collectMany (anc ++ [name]) children)) = true := by
        rw [goodForest_eq_all, List.all_eq_true]
        intro c hc
        exact (hmemgood c hc).1
      refine ⟨?_, ?_⟩
      · rw [goodTree, hany, hall]
        rfl
      · rw [hasFileDesc, hany]
  termination_by structural e

theorem collectMany_good (anc : List String) (l : List FsNode) :
    ∀ n, n ∈ collectMany anc l → goodTree n = true ∧ hasFileDesc n = true := by
  cases l with
  | nil => intro n h; rw [collectMany] at h; cases h
  | cons e rest =>
    intro n h
    rcases collectMany_mem_cases h with h' | h'
    · exact collectOne_good anc e n h'
    · exact collectMany_good anc rest n h'
  termination_by structural l

end

/-- C5: the full-tree walk never returns a directory node with zero file
descendants — every node of `getDocsTree` (at any nesting depth) satisfies
`goodTree`, and in particular every directory node has at least one `file`
descendant. -/
theorem C5_fullTree_pruned (root : List FsNode) :
    ∀ n ∈ getDocsTree root, goodTree n = true ∧ hasFileDesc n = true := by
  intro n hn
  rw [getDocsTree, collectDocs] at hn
  exact collectMany_good [] root n (sortLe_mem.mp hn)

/-- Closed witness for C5 at a small fixture: a pruned-worthy directory
(`only-txt`) next to a real document subtree. -/
theorem C5_witness :
    goodTree (DocNode.dir "z" ["z"]
      [DocNode.file "q" ["z", "q"] ⟨[], "zq"⟩]) = true ∧
    hasFileDesc (DocNode.dir "z" ["z"]
      [DocNode.file "q" ["z", "q"] ⟨[], "zq"⟩]) = true :=
  C5_fullTree_pruned
    [.dir "z" [.file "q.mdx" ⟨[], "zq"⟩],
     .dir "only-txt" [.file "notes.txt" ⟨[], "no"⟩]]
    (DocNode.dir "z" ["z"] [DocNode.file "q" ["z", "q"] ⟨[], "zq"⟩])
    (by
      rw [show getDocsTree
          [.dir "z" [.file "q.mdx" ⟨[], "zq"⟩],
           .dir "only-txt" [.file "notes.txt" ⟨[], "no"⟩]] =
        [DocNode.dir "z" ["z"] [DocNode.file "q" ["z", "q"] ⟨[], "zq"⟩]] from rfl]
      exact List.mem_cons_self _ _)

/-! ### C6: ordering of the builder outputs -/

mutual

theorem collectOne_sorted (anc : List String) (e : FsNode) :
    ∀ n, collectOne anc e = some n → sortedDeep n = true := by
  cases e with
  | file name doc =>
    intro n h
    rw [collectOne] at h
    by_cases hm : endsWithStr name ".mdx" = true
    · rw [if_pos hm] at h
      injection h with h1
      subst h1
      rfl
    · rw [if_neg hm] at h
      cases h
  | dir name children =>
    intro n h
    rw [collectOne] at h
    by_cases hs : (sortLe nodeLe (collectMany (anc ++ [name]) children)).isEmpty = true
    · rw [if_pos hs] at h
      cases h
    · rw [if_neg hs] at h
      injection h with h1
      subst h1
      have hpw : pairwiseLeB nodeLe
          (sortLe nodeLe (collectMany (anc ++ [name]) children)) = true :=
        pairwiseLeB_iff.mpr (sortLe_pairwise nodeLe_trans nodeLe_total _)
      have hforest : sortedForest
          (sortLe nodeLe (collectMany (anc ++ [name]) children)) = true := by
        rw [sortedForest_eq_all, List.all_eq_true]
        intro c hc
        exact collectMany_sorted (anc ++ [name]) children c (sortLe_mem.mp hc)
      rw [sortedDeep, hpw, hforest]
      rfl
  termination_by structural e

theorem collectMany_sorted (anc : List String) (l : List FsNode) :
    ∀ n, n ∈ collectMany anc l → sortedDeep n = true := by
  cases l with
  | nil =>
    intro n h
    rw [collectMany] at h
    cases h
  | cons e rest =>
    intro n h
    rcases collectMany_mem_cases h with h' | h'
    · exact collectOne_sorted anc e n h'
    · exact collectMany_sorted anc rest n h'
  termination_by structural l

end

theorem getChildNodes_ok_items {w : World} {slug : List String}
    {items : List DocListItem} (hok : getChildNodes w slug = .ok items) :
    ∃ entries items0,
      List.lookup (normJoin CONTENT_ROOT slug) w.dirs = some entries ∧
      entries.mapM (childItem w slug (normJoin CONTENT_ROOT slug)) = .ok items0 ∧
      items = sortLe itemLe (items0.filterMap id) := by
  rw [getChildNodes] at hok
  cases hd : List.lookup (normJoin CONTENT_ROOT slug) w.dirs with
  | none =>
    rw [hd] at hok
    dsimp only at hok
    cases hf : List.lookup (normJoin CONTENT_ROOT slug) w.files with
    | none => rw [hf] at hok; cases hok
    | some d => rw [hf] at hok; cases hok
  | some entries =>
    rw [hd] at hok
    dsimp only at hok
    cases hm : entries.mapM (childItem w slug (normJoin CONTENT_ROOT slug)) with
    | error e => rw [hm] at hok; cases hok
    | ok items0 =>
      rw [hm] at hok
      injection hok with h1
      exact ⟨entries, items0, rfl, hm, h1.symm⟩

/-- C6 (amended): the full-tree walk sorts every sequence it produces by
name only (no type precedence), under locale name comparison
(`localeCompare`: case-insensitive primary with code-unit tiebreak, e.g.
`a` before `B` — not case-sensitive lexicographic order), while the
one-level listing sorts with the directories-before-files precedence as an
explicit first sort key, then by locale name order; in particular in a
one-level listing no file item ever precedes a directory item. -/
theorem C6_ordering_amended :
    (∀ root : List FsNode,
      (getDocsTree root).Pairwise (fun a b => nodeLe a b = true)) ∧
    (∀ root : List FsNode, ∀ n ∈ getDocsTree root, sortedDeep n = true) ∧
    (∀ (w : World) (slug : List String) (items : List DocListItem),
      getChildNodes w slug = .ok items →
      items.Pairwise (fun a b => itemLe a b = true)) ∧
    (∀ (w : World) (slug : List String) (items : List DocListItem),
      getChildNodes w slug = .ok items →
      items.Pairwise (fun a b =>
        ¬(a.type = DocType.file ∧ b.type = DocType.directory))) := by
  have hpw : ∀ (w : World) (slug : List String) (items : List DocListItem),
      getChildNodes w slug = .ok items →
      items.Pairwise (fun a b => itemLe a b = true) := by
    intro w slug items hok
    obtain ⟨entries, items0, _, _, hitems⟩ := getChildNodes_ok_items hok
    rw [hitems]
    exact sortLe_pairwise itemLe_trans itemLe_total _
  refine ⟨?_, ?_, hpw, ?_⟩
  · intro root
    rw [getDocsTree, collectDocs]
    exact sortLe_pairwise nodeLe_trans nodeLe_total _
  · intro root n hn
    rw [getDocsTree, collectDocs] at hn
    exact collectMany_sorted [] root n (sortLe_mem.mp hn)
  · intro w slug items hok
    refine (hpw w slug items hok).imp ?_
    intro a b hle hcon
    rw [itemLe_iff] at hle
    rw [cmpItems, hcon.1, hcon.2] at hle
    rw [if_neg (by decide), if_neg (by decide)] at hle
    exact hle rfl

/-- Fixture refuting C6 as stated: the content root holds a file `a.mdx`
and a (documentless) subdirectory `z`. -/
def worldC6 : World :=
  { dirs := [(["app", "content"], [⟨"a.mdx", false⟩, ⟨"z", true⟩]),
             (["app", "content", "z"], [])],
    files := [(["app", "content", "a.mdx"], ⟨[], "A"⟩)] }

/-- C6 counterexample, refuting both parts of the claim as stated.
One-level listing: `getChildNodes` puts directory `z` before file `a`
although `"z"` sorts after `"a"` by name — the directories-before-files
precedence is applied as a builder-level sort key.  Full-tree walk: on the
sibling files `B.mdx` and `a.mdx`, `getDocsTree` returns `a` before `B`
(locale order, case-insensitive primary), although in case-sensitive
lexicographic (code-unit) order `"B"` precedes `"a"` — so the name order is
not case-sensitive lexicographic either. -/
theorem C6_counterexample :
    getChildNodes worldC6 [] =
      .ok [⟨.directory, "z", ["z"], some false, none⟩,
           ⟨.file, "a", ["a"], none, none⟩] ∧
    localeCompare "z" "a" = .gt ∧
    getDocsTree [.file "B.mdx" ⟨[], "bb"⟩, .file "a.mdx" ⟨[], "aa"⟩] =
      [DocNode.file "a" ["a"] ⟨[], "aa"⟩, DocNode.file "B" ["B"] ⟨[], "bb"⟩] ∧
    cmpChList "B".data "a".data = .lt := by
  exact ⟨rfl, by decide, rfl, by decide⟩

/-- Closed witness for the amended C6: the listing of `worldC6` is sorted
by the type-then-name order. -/
theorem C6_witness :
    ([⟨DocType.directory, "z", ["z"], some false, none⟩,
      ⟨DocType.file, "a", ["a"], none, none⟩] : List DocListItem).Pairwise
        (fun a b => itemLe a b = true) :=
  C6_ordering_amended.2.2.1 worldC6 [] _ rfl

/-! ### C4: the one-level listing does not prune -/

theorem mapM_ok_mem {α β : Type} {f : α → Except String β} :
    ∀ {l : List α} {r : List β}, l.mapM f = .ok r → ∀ a ∈ l, ∃ b ∈ r, f a = .ok b := by
  intro l
  induction l with
  | nil => intro r h a ha; cases ha
  | cons x xs ih =>
    intro r h a ha
    rw [List.mapM_cons] at h
    cases hfx : f x with
    | error e =>
      rw [hfx] at h
      cases h
    | ok b =>
      rw [hfx] at h
      cases hxs : xs.mapM f with
      | error e =>
        rw [hxs] at h
        cases h
      | ok bs =>
        rw [hxs] at h
        have hr : r = b :: bs := by
          have : (Except.ok (b :: bs) : Except String (List β)) = .ok r := h
          injection this with h1
          exact h1.symm
        subst hr
        rcases List.mem_cons.mp ha with rfl | ha'
        · exact ⟨b, List.mem_cons_self _ _, hfx⟩
        · obtain ⟨b', hb', hfb'⟩ := ih hxs a ha'
          exact ⟨b', List.mem_cons_of_mem _ hb', hfb'⟩

/-- C4 (amended): the one-level listing applies no pruning at all — every
non-hidden immediate subdirectory of the target appears as a `directory`
item, whether or not any document exists beneath it; its `hasChildren`
field reports the one-level check "directly contains a subdirectory or a
`.mdx` file", not the transitive-document condition. -/
theorem C4_oneLevel_unpruned (w : World) (slug : List String)
    (items : List DocListItem) (entries : List DirEnt) (e : DirEnt)
    (ces : List DirEnt)
    (hok : getChildNodes w slug = .ok items)
    (hdir : List.lookup (normJoin CONTENT_ROOT slug) w.dirs = some entries)
    (hmem : e ∈ entries) (hd : e.isDir = true)
    (hhid : startsWithStr e.name "." = false)
    (hsub : List.lookup (normJoin CONTENT_ROOT slug ++ [e.name]) w.dirs = some ces) :
    (⟨.directory, e.name, slug ++ [e.name],
        some (ces.any fun child => child.isDir || endsWithStr child.name ".mdx"),
        none⟩ : DocListItem) ∈ items := by
  obtain ⟨entries', items0, hdir', hmapM, hitems⟩ := getChildNodes_ok_items hok
  rw [hdir] at hdir'
  injection hdir' with he'
  subst he'
  obtain ⟨b, hb, hfb⟩ := mapM_ok_mem hmapM e hmem
  have hstep : childItem w slug (normJoin CONTENT_ROOT slug) e =
      .ok (some ⟨.directory, e.name, slug ++ [e.name],
        some (ces.any fun child => child.isDir || endsWithStr child.name ".mdx"),
        none⟩) := by
    rw [childItem, hhid]
    rw [if_neg (by simp), if_pos hd, hsub]
  rw [hstep] at hfb
  injection hfb with hb1
  subst hb1
  rw [hitems]
  exact sortLe_mem.mpr (List.mem_filterMap.mpr ⟨some _, hb, rfl⟩)

/-- Fixture for C4: the content root contains a single subdirectory
`empty` with no entries at all (so certainly no document beneath it). -/
def worldC4 : World :=
  { dirs := [(["app", "content"], [⟨"empty", true⟩]),
             (["app", "content", "empty"], [])],
    files := [] }

/-- C4 counterexample: the (documentless, in fact entryless) directory
`empty` still appears in the one-level listing, with `hasChildren = false`
— the claimed pruning rule is not applied. -/
theorem C4_counterexample :
    getChildNodes worldC4 [] =
      .ok [⟨.directory, "empty", ["empty"], some false, none⟩] ∧
    List.lookup (normJoin CONTENT_ROOT [] ++ ["empty"]) worldC4.dirs =
      some [] := by
  exact ⟨rfl, rfl⟩

/-- Closed witness for the amended C4 at `worldC4`. -/
theorem C4_witness :
    (⟨DocType.directory, "empty", ["empty"],
        some (([] : List DirEnt).any fun child =>
          child.isDir || endsWithStr child.name ".mdx"),
        none⟩ : DocListItem) ∈
      [(⟨DocType.directory, "empty", ["empty"], some false, none⟩ : DocListItem)] :=
  C4_oneLevel_unpruned worldC4 [] _ [⟨"empty", true⟩] ⟨"empty", true⟩ []
    rfl rfl (List.mem_cons_self _ _) rfl rfl rfl

/-! ### C1: the tree API performs no slug validation -/

/-- Fixture for C1: the parent of the content root contains a sibling
directory `secrets` holding a document. -/
def worldC1 : World :=
  { dirs := [(["app"], [⟨"content", true⟩, ⟨"secrets", true⟩]),
             (["app", "content"], [⟨"home.mdx", false⟩]),
             (["app", "secrets"], [⟨"passwords.mdx", false⟩])],
    files := [(["app", "content", "home.mdx"], ⟨[], "home"⟩),
              (["app", "secrets", "passwords.mdx"], ⟨[], "secret"⟩)] }

/-- C1: contrary to the claim, the directory-listing operation performs no
slug validation.  The request `?slug=..` parses to `[".."]`, which fails
the codebase's own `assertSafeSlug` validator, resolves (via `path.join`)
to the parent of the content root — a path the content root is not a
prefix of — and `getChildNodes` nevertheless succeeds, returning the
listing of that outside directory (including the sibling `secrets`
directory). -/
theorem C1_traversal_not_rejected :
    splitSlugParam ".." = [".."] ∧
    assertSafeSlug [".."] = false ∧
    normJoin CONTENT_ROOT [".."] = ["app"] ∧
    ¬ (CONTENT_ROOT <+: normJoin CONTENT_ROOT [".."]) ∧
    getChildNodes worldC1 [".."] =
      .ok [⟨.directory, "content", ["..", "content"], some true, none⟩,
           ⟨.directory, "secrets", ["..", "secrets"], some true, none⟩] := by
  refine ⟨rfl, rfl, rfl, ?_, rfl⟩
  intro h
  rcases h with ⟨t, ht⟩
  cases ht

/-! ### C9: index titles -/

mutual

theorem indexOne_mem (n : DocNode) :
    ∀ es e, indexOne n = .ok es → e ∈ es →
      ∃ slug doc, (slug, doc) ∈ treeFiles n ∧ e = mkIndexEntry slug doc := by
  cases n with
  | file name slug doc =>
    intro es e h he
    rw [indexOne] at h
    by_cases hs : assertSafeSlug slug = true
    · rw [if_pos hs] at h
      injection h with h1
      subst h1
      rcases List.mem_singleton.mp he with rfl
      exact ⟨slug, doc, by rw [treeFiles]; exact List.mem_singleton_self _, rfl⟩
    · rw [if_neg hs] at h
      cases h
  | dir name slug children =>
    intro es e h he
    rw [indexOne] at h
    obtain ⟨s, d, hmem, hE⟩ := indexMany_mem children es e h he
    exact ⟨s, d, by rw [treeFiles]; exact hmem, hE⟩
  termination_by structural n

theorem indexMany_mem (l : List DocNode) :
    ∀ es e, indexMany l = .ok es → e ∈ es →
      ∃ slug doc, (slug, doc) ∈ treeFilesL l ∧ e = mkIndexEntry slug doc := by
  cases l with
  | nil =>
    intro es e h he
    rw [indexMany] at h
    injection h with h1
    subst h1
    cases he
  | cons n rest =>
    intro es e h he
    rw [indexMany] at h
    cases h1 : indexOne n with
    | error err => rw [h1] at h; cases h
    | ok es1 =>
      rw [h1] at h
      cases h2 : indexMany rest with
      | error err => rw [h2] at h; cases h
      | ok es2 =>
        rw [h2] at h
        injection h with h3
        subst h3
        rcases List.mem_append.mp he with he' | he'
        · obtain ⟨s, d, hmem, hE⟩ := indexOne_mem n es1 e h1 he'
          exact ⟨s, d, by rw [treeFilesL]; exact List.mem_append_left _ hmem, hE⟩
        · obtain ⟨s, d, hmem, hE⟩ := indexMany_mem rest es2 e h2 he'
          exact ⟨s, d, by rw [treeFilesL]; exact List.mem_append_right _ hmem, hE⟩
  termination_by structural l

end

/-- C9 (amended): every record of `getDocsIndex` comes from a file of the
full tree and its title is `titleFor`: the front-matter `title` verbatim
when that field is a string, else the last slug segment verbatim — no
humanization is applied by the index builder. -/
theorem C9_index_title_amended :
    (∀ (root : List FsNode) (es : List DocIndexEntry) (e : DocIndexEntry),
      getDocsIndex root = .ok es → e ∈ es →
      ∃ slug doc, (slug, doc) ∈ treeFilesL (getDocsTree root) ∧
        e = mkIndexEntry slug doc ∧ e.title = titleFor doc.fm slug) ∧
    (∀ (fm : List (String × FmVal)) (slug : List String) (t : String),
      List.lookup "title" fm = some (FmVal.str t) → titleFor fm slug = t) ∧
    (∀ (fm : List (String × FmVal)) (slug : List String),
      List.lookup "title" fm = none →
      titleFor fm slug = (slug.getLast?).getD "") ∧
    (∀ (fm : List (String × FmVal)) (slug : List String),
      List.lookup "title" fm = some FmVal.other →
      titleFor fm slug = (slug.getLast?).getD "") := by
  refine ⟨?_, ?_, ?_, ?_⟩
  · intro root es e hok hmem
    rw [getDocsIndex] at hok
    cases hm : indexMany (getDocsTree root) with
    | error err => rw [hm] at hok; cases hok
    | ok entries =>
      rw [hm] at hok
      injection hok with h1
      subst h1
      obtain ⟨s, d, hmem', hE⟩ :=
        indexMany_mem (getDocsTree root) entries e hm (sortLe_mem.mp hmem)
      exact ⟨s, d, hmem', hE, by rw [hE]; rfl⟩
  · intro fm slug t h
    rw [titleFor, h]
  · intro fm slug h
    rw [titleFor, h]
  · intro fm slug h
    rw [titleFor, h]

/-- Fixture for C9: a single document whose name is hyphenated and whose
front matter has no title. -/
def fsC9 : List FsNode := [.file "getting-started.mdx" ⟨[], "body"⟩]

/-- C9 counterexample: the index title for an untitled document is the raw
last slug segment `"getting-started"`, not its humanization
`"Getting Started"` — `humanizeName` is never applied by `getDocsIndex`. -/
theorem C9_counterexample :
    getDocsIndex fsC9 = .ok [⟨["getting-started"], "getting-started", "body"⟩] ∧
    humanizeName "getting-started" = "Getting Started" ∧
    ("getting-started" : String) ≠ "Getting Started" := by
  exact ⟨rfl, rfl, by decide⟩

/-- Closed witness for the amended C9 at `fsC9`. -/
theorem C9_witness :
    ∃ slug doc, (slug, doc) ∈ treeFilesL (getDocsTree fsC9) ∧
      (⟨["getting-started"], "getting-started", "body"⟩ : DocIndexEntry) =
        mkIndexEntry slug doc ∧
      (⟨["getting-started"], "getting-started", "body"⟩ : DocIndexEntry).title =
        titleFor doc.fm slug :=
  C9_index_title_amended.1 fsC9 _ _ rfl (List.mem_cons_self _ _)
